import Mathlib

/-!
Verification development for the fig language front end (lexer, layout
transformer, literal scanner, and generic-parameter merging).

Source text is modelled as `List Char`; offsets are character indices.
All comparisons the Rust code performs on source bytes are against ASCII
characters (`' '`, `'\t'`, `'\n'`, digits, quotes), for which byte-level
and character-level scanning coincide; the one place where the byte/char
distinction matters (`position_from_source`) is modelled explicitly via a
UTF-8 byte encoding.
-/

namespace Fig

/-! ## Lexical errors (crates/nyx-lexer/src/error.rs)

Spans are half-open `(start, end)` pairs of offsets. -/

inductive LexicalError where
  | InvalidInteger (span : Nat × Nat) (reason : List Char)
  | InvalidFloat (span : Nat × Nat) (reason : List Char)
  | InvalidCharLiteral (span : Nat × Nat) (reason : List Char)
  | InvalidStringLiteral (span : Nat × Nat) (reason : List Char)
  | InvalidEscapeSequence (span : Nat × Nat) (sequence : List Char)
  | UnexpectedCharacter (span : Nat × Nat) (character : Char)
  | UnrecognizedToken (span : Nat × Nat) (text : List Char)
  | InvalidToken
deriving DecidableEq

/-! ## Integer literals (crates/nyx-lexer/src/integer.rs) -/

inductive Base where
  | Binary | Octal | Decimal | Hex
deriving DecidableEq

inductive IntegerSuffix where
  | U8 | U16 | U32 | U64 | I8 | I16 | I32 | I64 | USize | ISize
deriving DecidableEq

structure IntegerLiteral where
  base : Base
  digits : List Char
  suffix : Option IntegerSuffix
deriving DecidableEq

/-- The fixed suffix table of `parse_integer` (the `SUFFIXES` constant),
paired with the value `IntegerSuffix::from` maps each spelling to. -/
def SUFFIXES : List (List Char × IntegerSuffix) :=
  [("u8".toList, .U8), ("u16".toList, .U16), ("u32".toList, .U32),
   ("u64".toList, .U64), ("i8".toList, .I8), ("i16".toList, .I16),
   ("i32".toList, .I32), ("i64".toList, .I64),
   ("usize".toList, .USize), ("isize".toList, .ISize)]

/-- `SUFFIXES.iter().find(|suf| raw.ends_with(suf))`. -/
def findSuffix (raw : List Char) : Option (List Char × IntegerSuffix) :=
  SUFFIXES.find? (fun p => p.1.isSuffixOf raw)

/-- The lexeme with the matched suffix removed
(`&raw[..raw.len() - suf.len()]`). -/
def numberPart (raw : List Char) : List Char :=
  match findSuffix raw with
  | some p => raw.take (raw.length - p.1.length)
  | none => raw

/-- Base detection by `strip_prefix` on `0b` / `0o` / `0x`, in that order;
absence of a prefix means `Decimal`. -/
def baseAndDigits (np : List Char) : Base × List Char :=
  if List.isPrefixOf ("0b".toList) np then (Base.Binary, np.drop 2)
  else if List.isPrefixOf ("0o".toList) np then (Base.Octal, np.drop 2)
  else if List.isPrefixOf ("0x".toList) np then (Base.Hex, np.drop 2)
  else (Base.Decimal, np)

/-- The digit string left after stripping suffix and base prefix and
removing `_` separators (`digits.replace('_', "")`). -/
def cleanedDigits (raw : List Char) : List Char :=
  (baseAndDigits (numberPart raw)).2.filter (fun c => !(c = '_'))

/-- `parse_integer` from crates/nyx-lexer/src/integer.rs: strip a suffix
from the fixed table, strip the base prefix, drop underscores, and fail
with `InvalidInteger` when no digits remain. -/
def parse_integer (span : Nat × Nat) (raw : List Char) :
    Except LexicalError IntegerLiteral :=
  let suffix := findSuffix raw
  let np := numberPart raw
  let bd := baseAndDigits np
  let cleaned := bd.2.filter (fun c => !(c = '_'))
  if cleaned = [] then
    .error (.InvalidInteger span ("integer literal cannot be empty".toList))
  else
    .ok ⟨bd.1, cleaned, suffix.map (fun p => p.2)⟩

/-! ## Float literals (src/lexer/float.rs) -/

inductive FloatSuffix where
  | F32 | F64
deriving DecidableEq

inductive FloatExponent where
  | Positive (v : Nat) | Negative (v : Nat) | Unsigned (v : Nat)
deriving DecidableEq

structure FloatLiteral where
  digits : List Char
  exponent : Option FloatExponent
  suffix : Option FloatSuffix
deriving DecidableEq

/-- The float suffix table of `parse_float`, paired with the value
`FloatSuffix::from` maps each spelling to. -/
def FLOAT_SUFFIXES : List (List Char × FloatSuffix) :=
  [("f32".toList, .F32), ("f64".toList, .F64)]

/-- `str::parse::<u32>` on a digit string: fails on an empty string, a
non-digit character, or overflow past `u32::MAX`. -/
def parseU32 (s : List Char) : Option Nat :=
  if s ≠ [] ∧ s.all (fun c => c.isDigit) then
    let v := s.foldl (fun acc c => acc * 10 + (c.toNat - '0'.toNat)) 0
    if v < 2 ^ 32 then some v else none
  else none

/-- `parse_float` from src/lexer/float.rs: strip an `f32`/`f64` suffix,
split at the first `e`/`E`, and classify the exponent sign. -/
def parse_float (raw : List Char) : Option FloatLiteral :=
  let suffix := FLOAT_SUFFIXES.find? (fun p => p.1.isSuffixOf raw)
  let np := match suffix with
    | some p => raw.take (raw.length - p.1.length)
    | none => raw
  match np.findIdx? (fun c => c = 'e' ∨ c = 'E') with
  | some eIdx =>
    let digits := np.take eIdx
    let expStr := np.drop (eIdx + 1)
    match expStr with
    | [] => none
    | sign :: restExp =>
      let mk : Option FloatExponent :=
        if sign = '+' then
          (parseU32 (restExp.filter (fun c => !(c = '_')))).map .Positive
        else if sign = '-' then
          (parseU32 (restExp.filter (fun c => !(c = '_')))).map .Negative
        else if sign.isDigit then
          (parseU32 (expStr.filter (fun c => !(c = '_')))).map .Unsigned
        else none
      match mk with
      | some e => some ⟨digits, some e, suffix.map (fun p => p.2)⟩
      | none => none
  | none => some ⟨np, none, suffix.map (fun p => p.2)⟩

/-! ## Tokens (crates/nyx-lexer/src/lib.rs)

The constructor named `Type` in Rust is `TypeKw` here (`Type` is a Lean
keyword); all other constructor names match the source. -/

inductive Token where
  | Indent | Dedent
  | Newline
  | Fn | Let | Mut | Const | TypeKw | Struct | Enum | Union | Interface
  | Ext | Impl | True | False | OkLiteral | Raw | Super | If | Else
  | For | While | Break | Continue | Match | Return | Mutable
  | SelfKeyword | In
  | U8 | U16 | U32 | U64 | USize | ISize | I8 | I16 | I32 | I64
  | F32 | F64 | Bool
  | Plus | Minus | Star | Slash | Percent | EqEq | Ne | Lt | Gt | Le | Ge
  | AndAnd | OrOr | Bang | And | Or | Caret | Tilde | Shl | Shr
  | Eq | PlusEq | MinusEq | StarEq | SlashEq | PercentEq | AndEq | OrEq
  | CaretEq | ShlEq | ShrEq | Arrow | FatArrow
  | LParen | RParen | LBrace | RBrace | LBracket | RBracket
  | Colon | Semicolon | Comma | Dot
  | Underscore
  | Ident (name : List Char)
  | FloatLiteral (lit : FloatLiteral)
  | IntegerLiteral (lit : IntegerLiteral)
  | StringLiteral (s : List Char)
  | CharLiteral (s : List Char)
  | At

/-- Injective code for `Token` (a numeric tag plus the payloads), used to
derive decidable equality without a quadratic case split. -/
def Token.code (t : Token) :
    Nat × List Char × Option Fig.IntegerLiteral × Option Fig.FloatLiteral :=
  match t with
  | .Indent => (0, [], none, none)
  | .Dedent => (1, [], none, none)
  | .Newline => (2, [], none, none)
  | .Fn => (3, [], none, none)
  | .Let => (4, [], none, none)
  | .Mut => (5, [], none, none)
  | .Const => (6, [], none, none)
  | .TypeKw => (7, [], none, none)
  | .Struct => (8, [], none, none)
  | .Enum => (9, [], none, none)
  | .Union => (10, [], none, none)
  | .Interface => (11, [], none, none)
  | .Ext => (12, [], none, none)
  | .Impl => (13, [], none, none)
  | .True => (14, [], none, none)
  | .False => (15, [], none, none)
  | .OkLiteral => (16, [], none, none)
  | .Raw => (17, [], none, none)
  | .Super => (18, [], none, none)
  | .If => (19, [], none, none)
  | .Else => (20, [], none, none)
  | .For => (21, [], none, none)
  | .While => (22, [], none, none)
  | .Break => (23, [], none, none)
  | .Continue => (24, [], none, none)
  | .Match => (25, [], none, none)
  | .Return => (26, [], none, none)
  | .Mutable => (27, [], none, none)
  | .SelfKeyword => (28, [], none, none)
  | .In => (29, [], none, none)
  | .U8 => (30, [], none, none)
  | .U16 => (31, [], none, none)
  | .U32 => (32, [], none, none)
  | .U64 => (33, [], none, none)
  | .USize => (34, [], none, none)
  | .ISize => (35, [], none, none)
  | .I8 => (36, [], none, none)
  | .I16 => (37, [], none, none)
  | .I32 => (38, [], none, none)
  | .I64 => (39, [], none, none)
  | .F32 => (40, [], none, none)
  | .F64 => (41, [], none, none)
  | .Bool => (42, [], none, none)
  | .Plus => (43, [], none, none)
  | .Minus => (44, [], none, none)
  | .Star => (45, [], none, none)
  | .Slash => (46, [], none, none)
  | .Percent => (47, [], none, none)
  | .EqEq => (48, [], none, none)
  | .Ne => (49, [], none, none)
  | .Lt => (50, [], none, none)
  | .Gt => (51, [], none, none)
  | .Le => (52, [], none, none)
  | .Ge => (53, [], none, none)
  | .AndAnd => (54, [], none, none)
  | .OrOr => (55, [], none, none)
  | .Bang => (56, [], none, none)
  | .And => (57, [], none, none)
  | .Or => (58, [], none, none)
  | .Caret => (59, [], none, none)
  | .Tilde => (60, [], none, none)
  | .Shl => (61, [], none, none)
  | .Shr => (62, [], none, none)
  | .Eq => (63, [], none, none)
  | .PlusEq => (64, [], none, none)
  | .MinusEq => (65, [], none, none)
  | .StarEq => (66, [], none, none)
  | .SlashEq => (67, [], none, none)
  | .PercentEq => (68, [], none, none)
  | .AndEq => (69, [], none, none)
  | .OrEq => (70, [], none, none)
  | .CaretEq => (71, [], none, none)
  | .ShlEq => (72, [], none, none)
  | .ShrEq => (73, [], none, none)
  | .Arrow => (74, [], none, none)
  | .FatArrow => (75, [], none, none)
  | .LParen => (76, [], none, none)
  | .RParen => (77, [], none, none)
  | .LBrace => (78, [], none, none)
  | .RBrace => (79, [], none, none)
  | .LBracket => (80, [], none, none)
  | .RBracket => (81, [], none, none)
  | .Colon => (82, [], none, none)
  | .Semicolon => (83, [], none, none)
  | .Comma => (84, [], none, none)
  | .Dot => (85, [], none, none)
  | .Underscore => (86, [], none, none)
  | .Ident n => (87, n, none, none)
  | .FloatLiteral l => (88, [], none, some l)
  | .IntegerLiteral l => (89, [], some l, none)
  | .StringLiteral s => (90, s, none, none)
  | .CharLiteral s => (91, s, none, none)
  | .At => (92, [], none, none)

/-- Left inverse of `Token.code`. -/
def Token.decode (c : Nat × List Char × Option Fig.IntegerLiteral × Option Fig.FloatLiteral) :
    Token :=
  match c with
  | (0, _, _, _) => .Indent
  | (1, _, _, _) => .Dedent
  | (2, _, _, _) => .Newline
  | (3, _, _, _) => .Fn
  | (4, _, _, _) => .Let
  | (5, _, _, _) => .Mut
  | (6, _, _, _) => .Const
  | (7, _, _, _) => .TypeKw
  | (8, _, _, _) => .Struct
  | (9, _, _, _) => .Enum
  | (10, _, _, _) => .Union
  | (11, _, _, _) => .Interface
  | (12, _, _, _) => .Ext
  | (13, _, _, _) => .Impl
  | (14, _, _, _) => .True
  | (15, _, _, _) => .False
  | (16, _, _, _) => .OkLiteral
  | (17, _, _, _) => .Raw
  | (18, _, _, _) => .Super
  | (19, _, _, _) => .If
  | (20, _, _, _) => .Else
  | (21, _, _, _) => .For
  | (22, _, _, _) => .While
  | (23, _, _, _) => .Break
  | (24, _, _, _) => .Continue
  | (25, _, _, _) => .Match
  | (26, _, _, _) => .Return
  | (27, _, _, _) => .Mutable
  | (28, _, _, _) => .SelfKeyword
  | (29, _, _, _) => .In
  | (30, _, _, _) => .U8
  | (31, _, _, _) => .U16
  | (32, _, _, _) => .U32
  | (33, _, _, _) => .U64
  | (34, _, _, _) => .USize
  | (35, _, _, _) => .ISize
  | (36, _, _, _) => .I8
  | (37, _, _, _) => .I16
  | (38, _, _, _) => .I32
  | (39, _, _, _) => .I64
  | (40, _, _, _) => .F32
  | (41, _, _, _) => .F64
  | (42, _, _, _) => .Bool
  | (43, _, _, _) => .Plus
  | (44, _, _, _) => .Minus
  | (45, _, _, _) => .Star
  | (46, _, _, _) => .Slash
  | (47, _, _, _) => .Percent
  | (48, _, _, _) => .EqEq
  | (49, _, _, _) => .Ne
  | (50, _, _, _) => .Lt
  | (51, _, _, _) => .Gt
  | (52, _, _, _) => .Le
  | (53, _, _, _) => .Ge
  | (54, _, _, _) => .AndAnd
  | (55, _, _, _) => .OrOr
  | (56, _, _, _) => .Bang
  | (57, _, _, _) => .And
  | (58, _, _, _) => .Or
  | (59, _, _, _) => .Caret
  | (60, _, _, _) => .Tilde
  | (61, _, _, _) => .Shl
  | (62, _, _, _) => .Shr
  | (63, _, _, _) => .Eq
  | (64, _, _, _) => .PlusEq
  | (65, _, _, _) => .MinusEq
  | (66, _, _, _) => .StarEq
  | (67, _, _, _) => .SlashEq
  | (68, _, _, _) => .PercentEq
  | (69, _, _, _) => .AndEq
  | (70, _, _, _) => .OrEq
  | (71, _, _, _) => .CaretEq
  | (72, _, _, _) => .ShlEq
  | (73, _, _, _) => .ShrEq
  | (74, _, _, _) => .Arrow
  | (75, _, _, _) => .FatArrow
  | (76, _, _, _) => .LParen
  | (77, _, _, _) => .RParen
  | (78, _, _, _) => .LBrace
  | (79, _, _, _) => .RBrace
  | (80, _, _, _) => .LBracket
  | (81, _, _, _) => .RBracket
  | (82, _, _, _) => .Colon
  | (83, _, _, _) => .Semicolon
  | (84, _, _, _) => .Comma
  | (85, _, _, _) => .Dot
  | (86, _, _, _) => .Underscore
  | (87, n, _, _) => .Ident n
  | (88, _, _, some l) => .FloatLiteral l
  | (89, _, some l, _) => .IntegerLiteral l
  | (90, s, _, _) => .StringLiteral s
  | (91, s, _, _) => .CharLiteral s
  | _ => .At

theorem Token.decode_code (t : Token) : Token.decode t.code = t := by
  cases t <;> rfl

instance : DecidableEq Token := fun a b =>
  decidable_of_iff (a.code = b.code)
    ⟨fun h => by rw [← Token.decode_code a, h, Token.decode_code],
     fun h => by rw [h]⟩

/-- The `match escaped_char` arm of `unescape_literal`: the seven
recognised escapes map to their control/quote characters; any other
character keeps the backslash and the character verbatim. -/
def escapeMap (c : Char) : List Char :=
  if c = 'n' then ['\n']
  else if c = 'r' then ['\r']
  else if c = 't' then ['\t']
  else if c = '\\' then ['\\']
  else if c = '0' then ['\x00']
  else if c = '\'' then ['\'']
  else if c = '"' then ['"']
  else ['\\', c]

/-- Body of `unescape_literal`: walk the characters between the quotes; a
backslash followed by a character goes through `escapeMap`, and a trailing
lone backslash is kept. -/
def unescapeInner : List Char → List Char
  | [] => []
  | c :: rest =>
    if c = '\\' then
      match rest with
      | [] => ['\\']
      | e :: restTail => escapeMap e ++ unescapeInner restTail
    else c :: unescapeInner rest

/-- `unescape_literal` from crates/nyx-lexer/src/lib.rs: drop the
surrounding quotes and unescape the interior. -/
def unescape_literal (lexSlice : List Char) : List Char :=
  unescapeInner (lexSlice.drop 1).dropLast

/-! ## Raw token scanner

Executable model of the derived maximal-munch lexer: at each position every
rule family computes its longest match; the longest overall wins, with the
fixed-token table taking priority over the identifier rule on ties (so
keywords beat identifiers of the same length, as in the derived lexer). -/

/-- Length of the longest run of characters satisfying `p`. -/
def countWhile (p : Char → Bool) : List Char → Nat
  | [] => 0
  | c :: rest => if p c then 1 + countWhile p rest else 0

/-- Character class `[a-zA-Z0-9_]` of the identifier rule. -/
def isIdentChar (c : Char) : Bool := c.isAlpha || c.isDigit || c = '_'

/-- Length matched by `[a-zA-Z][a-zA-Z0-9_]*|_[a-zA-Z0-9_]+` (0 = no match). -/
def matchIdent (l : List Char) : Nat :=
  match l with
  | [] => 0
  | c :: rest =>
    if c.isAlpha then 1 + countWhile isIdentChar rest
    else if c = '_' then
      let k := countWhile isIdentChar rest
      if 0 < k then 1 + k else 0
    else 0

/-- `[_0-9]` -/
def isDigitU (c : Char) : Bool := c.isDigit || c = '_'

def isBinDigit (c : Char) : Bool := c = '0' || c = '1'

def isOctDigit (c : Char) : Bool := '0' ≤ c && c ≤ '7'

def isHexDigit (c : Char) : Bool :=
  c.isDigit || ('a' ≤ c && c ≤ 'f') || ('A' ≤ c && c ≤ 'F')

/-- Length of the longest integer-suffix group `(i8|...|usize)?` match at the
start of `l` (0 when the optional group is absent). -/
def suffixLen (l : List Char) : Nat :=
  SUFFIXES.foldl
    (fun acc p => if p.1.isPrefixOf l && acc < p.1.length then p.1.length else acc) 0

/-- Length of the optional float-suffix group `(f32|f64)?` match. -/
def floatSuffixLen (l : List Char) : Nat :=
  FLOAT_SUFFIXES.foldl
    (fun acc p => if p.1.isPrefixOf l && acc < p.1.length then p.1.length else acc) 0

/-- `[0-9][_0-9]*(suffix)?` -/
def matchDecInt (l : List Char) : Nat :=
  match l with
  | [] => 0
  | c :: rest =>
    if c.isDigit then
      let k := 1 + countWhile isDigitU rest
      k + suffixLen (l.drop k)
    else 0

/-- `0b[01][_01]*(suffix)?` -/
def matchBinInt (l : List Char) : Nat :=
  match l with
  | '0' :: 'b' :: c :: rest =>
    if isBinDigit c then
      let k := 3 + countWhile (fun x => isBinDigit x || x = '_') rest
      k + suffixLen (l.drop k)
    else 0
  | _ => 0

/-- `0o_?[0-7][_0-7]*(suffix)?` -/
def matchOctInt (l : List Char) : Nat :=
  match l with
  | '0' :: 'o' :: rest =>
    let body : Option Nat :=
      match rest with
      | '_' :: c :: r2 =>
        if isOctDigit c then
          some (2 + countWhile (fun x => isOctDigit x || x = '_') r2)
        else none
      | c :: r2 =>
        if isOctDigit c then
          some (1 + countWhile (fun x => isOctDigit x || x = '_') r2)
        else none
      | [] => none
    match body with
    | some k0 => (2 + k0) + suffixLen (l.drop (2 + k0))
    | none => 0
  | _ => 0

/-- `0x_?[0-9a-fA-F][_0-9a-fA-F]*(suffix)?` -/
def matchHexInt (l : List Char) : Nat :=
  match l with
  | '0' :: 'x' :: rest =>
    let body : Option Nat :=
      match rest with
      | '_' :: c :: r2 =>
        if isHexDigit c then
          some (2 + countWhile (fun x => isHexDigit x || x = '_') r2)
        else none
      | c :: r2 =>
        if isHexDigit c then
          some (1 + countWhile (fun x => isHexDigit x || x = '_') r2)
        else none
      | [] => none
    match body with
    | some k0 => (2 + k0) + suffixLen (l.drop (2 + k0))
    | none => 0
  | _ => 0

/-- Longest match among the four integer-literal regexes. -/
def matchInteger (l : List Char) : Nat :=
  max (max (matchDecInt l) (matchBinInt l)) (max (matchOctInt l) (matchHexInt l))

/-- Length of the optional exponent group `(e[+-]?[0-9][_0-9]*)?`
(0 when the group does not match). -/
def matchExpPart (l : List Char) : Nat :=
  match l with
  | 'e' :: rest =>
    match rest with
    | '+' :: c :: r2 => if c.isDigit then 3 + countWhile isDigitU r2 else 0
    | '-' :: c :: r2 => if c.isDigit then 3 + countWhile isDigitU r2 else 0
    | c :: r2 => if c.isDigit then 2 + countWhile isDigitU r2 else 0
    | [] => 0
  | _ => 0

/-- `[0-9][_0-9]*\.[0-9][_0-9]*(e[+-]?[0-9][_0-9]*)?(f32|f64)?` -/
def matchFloat1 (l : List Char) : Nat :=
  match l with
  | [] => 0
  | c :: rest =>
    if c.isDigit then
      let k1 := 1 + countWhile isDigitU rest
      match l.drop k1 with
      | '.' :: c2 :: r2 =>
        if c2.isDigit then
          let k2 := k1 + 2 + countWhile isDigitU r2
          let k3 := k2 + matchExpPart (l.drop k2)
          k3 + floatSuffixLen (l.drop k3)
        else 0
      | _ => 0
    else 0

/-- `[0-9][_0-9]*e[+-]?[0-9][_0-9]*(f32|f64)?` -/
def matchFloat2 (l : List Char) : Nat :=
  match l with
  | [] => 0
  | c :: rest =>
    if c.isDigit then
      let k1 := 1 + countWhile isDigitU rest
      let e := matchExpPart (l.drop k1)
      if e = 0 then 0
      else (k1 + e) + floatSuffixLen (l.drop (k1 + e))
    else 0

/-- Longest match among the two float-literal regexes. -/
def matchFloat (l : List Char) : Nat := max (matchFloat1 l) (matchFloat2 l)

/-- Body of the string-literal regex `"(?:[^"\\]|\\.)*"` after the opening
quote; returns the length scanned including the closing quote (`.` does not
match a newline). -/
def matchStringBody : List Char → Option Nat
  | [] => none
  | '"' :: _ => some 1
  | '\\' :: c :: rest =>
    if c = '\n' then none else (matchStringBody rest).map (fun n => 2 + n)
  | '\\' :: [] => none
  | _ :: rest => (matchStringBody rest).map (fun n => 1 + n)

/-- Full length of a string-literal match (including both quotes). -/
def matchString (l : List Char) : Option Nat :=
  match l with
  | '"' :: rest => (matchStringBody rest).map (fun n => 1 + n)
  | _ => none

/-- Length of a char-literal match `'(?:[^'\\]|\\.)'`. -/
def matchChar (l : List Char) : Option Nat :=
  match l with
  | '\'' :: '\\' :: c :: '\'' :: _ => if c = '\n' then none else some 4
  | '\'' :: c :: '\'' :: _ => if c = '\'' || c = '\\' then none else some 3
  | _ => none

/-- `//[^\n]*` -/
def matchLineComment (l : List Char) : Option Nat :=
  match l with
  | '/' :: '/' :: rest => some (2 + countWhile (fun c => !(c = '\n')) rest)
  | _ => none

/-- Distance to just past the first `*/`, scanning after the opener. -/
def matchBlockBody : List Char → Option Nat
  | '*' :: '/' :: _ => some 2
  | _ :: rest => (matchBlockBody rest).map (fun n => 1 + n)
  | [] => none

/-- Length of a non-nesting block comment `/* ... */` match. -/
def matchBlockComment (l : List Char) : Option Nat :=
  match l with
  | '/' :: '*' :: rest => (matchBlockBody rest).map (fun n => 2 + n)
  | _ => none

set_option maxHeartbeats 1000000 in
/-- The `#[token(...)]` table of the `Token` enum, in declaration order. -/
def fixedTokens : List (List Char × Token) :=
  [("fn".toList, .Fn), ("let".toList, .Let), ("mut".toList, .Mut),
   ("const".toList, .Const), ("type".toList, .TypeKw),
   ("struct".toList, .Struct), ("enum".toList, .Enum),
   ("union".toList, .Union), ("interface".toList, .Interface),
   ("ext".toList, .Ext), ("impl".toList, .Impl),
   ("true".toList, .True), ("false".toList, .False),
   ("ok".toList, .OkLiteral), ("raw".toList, .Raw),
   ("super".toList, .Super), ("if".toList, .If), ("else".toList, .Else),
   ("for".toList, .For), ("while".toList, .While),
   ("break".toList, .Break), ("continue".toList, .Continue),
   ("match".toList, .Match), ("return".toList, .Return),
   ("mutable".toList, .Mutable), ("Self".toList, .SelfKeyword),
   ("in".toList, .In),
   ("u8".toList, .U8), ("u16".toList, .U16), ("u32".toList, .U32),
   ("u64".toList, .U64), ("usize".toList, .USize),
   ("isize".toList, .ISize), ("i8".toList, .I8), ("i16".toList, .I16),
   ("i32".toList, .I32), ("i64".toList, .I64), ("f32".toList, .F32),
   ("f64".toList, .F64), ("bool".toList, .Bool),
   ("+".toList, .Plus), ("-".toList, .Minus), ("*".toList, .Star),
   ("/".toList, .Slash), ("%".toList, .Percent), ("==".toList, .EqEq),
   ("!=".toList, .Ne), ("<".toList, .Lt), (">".toList, .Gt),
   ("<=".toList, .Le), (">=".toList, .Ge), ("&&".toList, .AndAnd),
   ("||".toList, .OrOr), ("!".toList, .Bang), ("&".toList, .And),
   ("|".toList, .Or), ("^".toList, .Caret), ("~".toList, .Tilde),
   ("<<".toList, .Shl), (">>".toList, .Shr), ("=".toList, .Eq),
   ("+=".toList, .PlusEq), ("-=".toList, .MinusEq),
   ("*=".toList, .StarEq), ("/=".toList, .SlashEq),
   ("%=".toList, .PercentEq), ("&=".toList, .AndEq),
   ("|=".toList, .OrEq), ("^=".toList, .CaretEq),
   ("<<=".toList, .ShlEq), (">>=".toList, .ShrEq),
   ("->".toList, .Arrow), ("=>".toList, .FatArrow),
   ("(".toList, .LParen), (")".toList, .RParen),
   ("\x7b".toList, .LBrace), ("\x7d".toList, .RBrace),
   ("[".toList, .LBracket), ("]".toList, .RBracket),
   (":".toList, .Colon), (";".toList, .Semicolon),
   (",".toList, .Comma), (".".toList, .Dot),
   ("_".toList, .Underscore), ("@".toList, .At)]

/-- One step of the longest-fixed-token fold: keep the longer match. -/
def fixedStep (l : List Char) (acc : Option (Nat × Token))
    (p : List Char × Token) : Option (Nat × Token) :=
  if p.1.isPrefixOf l then
    match acc with
    | some q => if q.1 < p.1.length then some (p.1.length, p.2) else acc
    | none => some (p.1.length, p.2)
  else acc

/-- Longest fixed-token match at the start of `l`. -/
def bestFixed (l : List Char) : Option (Nat × Token) :=
  fixedTokens.foldl (fixedStep l) none

instance {ε α : Type} [DecidableEq ε] [DecidableEq α] :
    DecidableEq (Except ε α) := fun a b =>
  match a, b with
  | .ok x, .ok y =>
    if h : x = y then .isTrue (by rw [h]) else .isFalse (by simp [h])
  | .error x, .error y =>
    if h : x = y then .isTrue (by rw [h]) else .isFalse (by simp [h])
  | .ok _, .error _ => .isFalse (by simp)
  | .error _, .ok _ => .isFalse (by simp)

/-- What a winning rule emits: nothing (skipped input), a token, or an
error item (a failed literal callback). -/
inductive Emission where
  | skipE
  | tokE (t : Token)
  | errE
deriving DecidableEq

/-- One raw stream item: `Result<Token, ()>` plus the span start. -/
abbrev RawItem := Except Unit Token × Nat

/-- All rule-family candidates at the current position, in priority order
for ties (the fixed table is listed before the identifier rule). -/
def candidates (l : List Char) (pos : Nat) : List (Nat × Emission) :=
  let ws := countWhile (fun c => c = ' ' || c = '\t') l
  let lc := (matchLineComment l).getD 0
  let bc := (matchBlockComment l).getD 0
  let nl : Nat := match l with | '\n' :: _ => 1 | _ => 0
  let fx : Nat × Emission :=
    match bestFixed l with
    | some q => (q.1, .tokE q.2)
    | none => (0, .skipE)
  let idn := matchIdent l
  let fl := matchFloat l
  let flE : Emission :=
    match parse_float (l.take fl) with
    | some v => .tokE (.FloatLiteral v)
    | none => .errE
  let itg := matchInteger l
  let itgE : Emission :=
    match parse_integer (pos, pos + itg) (l.take itg) with
    | .ok v => .tokE (.IntegerLiteral v)
    | .error _ => .errE
  let st := (matchString l).getD 0
  let ch := (matchChar l).getD 0
  [(ws, .skipE), (lc, .skipE), (bc, .skipE),
   (nl, .tokE .Newline),
   fx,
   (idn, .tokE (.Ident (l.take idn))),
   (fl, flE),
   (itg, itgE),
   (st, .tokE (.StringLiteral (unescape_literal (l.take st)))),
   (ch, .tokE (.CharLiteral (unescape_literal (l.take ch))))]

/-- Maximal munch: keep the candidate with the greatest positive length;
the earlier entry wins ties. -/
def pickBest : List (Nat × Emission) → Option (Nat × Emission)
  | [] => none
  | p :: rest =>
    match pickBest rest with
    | some q => if p.1 = 0 then some q else if p.1 < q.1 then some q else some p
    | none => if p.1 = 0 then none else some p

/-- One scanner step: characters consumed plus the emitted item, if any. -/
def scanOne (l : List Char) (pos : Nat) : Nat × Option RawItem :=
  match pickBest (candidates l pos) with
  | some (n, .skipE) => (n, none)
  | some (n, .tokE t) => (n, some (.ok t, pos))
  | some (n, .errE) => (n, some (.error (), pos))
  | none => (1, some (.error (), pos))

/-- Scanner loop; every step consumes at least one character, so fuel equal
to the input length is exact. -/
def rawLexGo : Nat → List Char → Nat → List RawItem
  | 0, _, _ => []
  | _, [], _ => []
  | fuel + 1, l, pos =>
    match scanOne l pos with
    | (n, some it) => it :: rawLexGo fuel (l.drop n) (pos + n)
    | (n, none) => rawLexGo fuel (l.drop n) (pos + n)

/-- The raw (pre-layout) token stream of a source text. -/
def rawLex (src : List Char) : List RawItem := rawLexGo src.length src 0

/-! ## Layout transformer `IndentLexer` (crates/nyx-lexer/src/lib.rs)

The indentation stack is a `List Nat` whose head is the top (the end of the
Rust `Vec`); it starts as `[0]` and the Rust `last().unwrap()` is modelled
by `headD 0` (the bottom `0` is never popped, so the stack is never empty
on any reachable state). The Rust struct also carries an `at_line_start`
flag that is written but never read in `next`, so it is omitted here. -/

/-- `calculate_line_indentation`: walk back from the token start to the
previous newline, then count leading spaces (a tab counts as 4). -/
def calculate_line_indentation (source : List Char) (tokenStart : Nat) : Nat :=
  let lineChars := ((source.take tokenStart).reverse.takeWhile
    (fun c => !(c = '\n'))).reverse
  indentWidth lineChars
where
  /-- Width of the leading space/tab run, stopping at the first other
  character. -/
  indentWidth : List Char → Nat
    | [] => 0
    | c :: rest =>
      if c = ' ' then 1 + indentWidth rest
      else if c = '\t' then 4 + indentWidth rest
      else 0

/-- `is_blank_or_comment_line`: everything before the token on its line is
spaces/tabs, and the source at the token start begins with a newline or a
line comment. -/
def is_blank_or_comment_line (source : List Char) (tokenStart : Nat) : Bool :=
  let lineChars := ((source.take tokenStart).reverse.takeWhile
    (fun c => !(c = '\n'))).reverse
  let after := source.drop tokenStart
  lineChars.all (fun c => c = ' ' || c = '\t') &&
    (("\n".toList).isPrefixOf after || ("//".toList).isPrefixOf after)

/-- The `for i in 1..=num_indents` push loop of `handle_indentation`: one
`Indent` token and one pushed level `current + i*4` per iteration. -/
def indentLoop (current : Nat) (stack : List Nat) : Nat → List Token × List Nat
  | 0 => ([], stack)
  | n + 1 =>
    let p := indentLoop current stack n
    (p.1 ++ [Token.Indent], (current + (n + 1) * 4) :: p.2)

/-- The `while` pop loop of `handle_indentation`: pop and emit one `Dedent`
while the top is greater than the new width. -/
def dedentLoop (width : Nat) : List Nat → List Token × List Nat
  | [] => ([], [])
  | l :: rest =>
    if l ≤ width then ([], l :: rest)
    else
      let p := dedentLoop width rest
      (Token.Dedent :: p.1, p.2)

/-- `handle_indentation`: compare the line's width with the stack top and
produce the layout tokens plus the updated stack. -/
def handle_indentation (stack : List Nat) (indentLevel : Nat) :
    List Token × List Nat :=
  if stack.headD 0 < indentLevel then
    indentLoop (stack.headD 0) stack ((indentLevel - stack.headD 0) / 4)
  else if indentLevel < stack.headD 0 then
    dedentLoop indentLevel stack
  else ([], stack)

/-- Mutable state of `IndentLexer` (minus the unread `at_line_start`). -/
structure IndentState where
  stack : List Nat
  lastNl : Bool
deriving DecidableEq

/-- One step of `IndentLexer::next` on a raw item: the emitted items in
order (the Rust code returns the first and queues the rest in
`pending_tokens`, which is drained before the next pull) and the new
state. -/
def layoutStep (source : List Char) (st : IndentState) (item : RawItem) :
    List (Except Unit Token) × IndentState :=
  match item with
  | (.ok tok, tokenStart) =>
    if tok = Token.Newline then ([.ok tok], { st with lastNl := true })
    else if st.lastNl then
      if !(is_blank_or_comment_line source tokenStart) then
        (((handle_indentation st.stack
            (calculate_line_indentation source tokenStart)).1 ++ [tok]).map .ok,
         { stack := (handle_indentation st.stack
             (calculate_line_indentation source tokenStart)).2,
           lastNl := false })
      else ([.ok tok], { st with lastNl := false })
    else ([.ok tok], st)
  | (.error e, _) => ([.error e], st)

/-- Run `layoutStep` over the whole raw stream. -/
def runLayout (source : List Char) :
    List RawItem → IndentState → List (Except Unit Token) × IndentState
  | [], st => ([], st)
  | item :: rest, st =>
    let p := layoutStep source st item
    let q := runLayout source rest p.2
    (p.1 ++ q.1, q.2)

/-- The full layout-aware token stream: run the layout transformer over the
raw stream from the initial state (stack `[0]`, not after a newline), then
flush one `Dedent` per remaining stack level above the base at EOF. -/
def indentLex (source : List Char) : List (Except Unit Token) :=
  (runLayout source (rawLex source) ⟨[0], false⟩).1 ++
    List.replicate
      ((runLayout source (rawLex source) ⟨[0], false⟩).2.stack.length - 1)
      (.ok Token.Dedent)

/-! ## Generic parameters and where-clause merging
(crates/fig-parser/src/ast.rs)

`merge_where_clause` never inspects the bounds or types themselves — it
only moves them between lists keyed by parameter name — so the embedding is
parametric in the bound type `Ty` (instantiated with `List Char` path names
in concrete statements), avoiding the mutually recursive `Type`/`Expression`
AST. The Rust constructor `GenericParameter::Type` is `typeParam` here
(`Type` is a Lean keyword) and `GenericParameter::Const` is `constParam`. -/

inductive GenericParameter (Ty : Type) where
  | typeParam (name : List Char) (bounds : List Ty) (default_type : Option Ty)
  | constParam (name : List Char) (ty : Ty)
deriving DecidableEq

/-- The name of a generic parameter, whichever constructor it uses. -/
def GenericParameter.name {Ty : Type} : GenericParameter Ty → List Char
  | .typeParam n _ _ => n
  | .constParam n _ => n

/-- Whether `params.iter_mut().find(...)` finds a `Type` parameter with the
given name. -/
def hasTypeParam {Ty : Type} (n : List Char) : List (GenericParameter Ty) → Bool
  | [] => false
  | .typeParam m _ _ :: rest => m = n || hasTypeParam n rest
  | .constParam _ _ :: rest => hasTypeParam n rest

/-- `existing_bounds.extend(bounds)` on the first `Type` parameter whose
name matches. -/
def extendFirst {Ty : Type} (n : List Char) (bs : List Ty) :
    List (GenericParameter Ty) → List (GenericParameter Ty)
  | [] => []
  | .typeParam m bounds dft :: rest =>
    if m = n then .typeParam m (bounds ++ bs) dft :: rest
    else .typeParam m bounds dft :: extendFirst n bs rest
  | .constParam m ty :: rest => .constParam m ty :: extendFirst n bs rest

/-- The body of the `for constraint in where_clause` loop: a `Type`
constraint extends the matching `Type` parameter or is appended as a new
`Type` parameter with no default; a `Const` constraint is ignored. -/
def mergeOne {Ty : Type} (params : List (GenericParameter Ty)) :
    GenericParameter Ty → List (GenericParameter Ty)
  | .typeParam n bs _ =>
    if hasTypeParam n params then extendFirst n bs params
    else params ++ [.typeParam n bs none]
  | .constParam _ _ => params

/-- `merge_where_clause` from crates/fig-parser/src/ast.rs. -/
def merge_where_clause {Ty : Type} (params whereClause : List (GenericParameter Ty)) :
    List (GenericParameter Ty) :=
  whereClause.foldl mergeOne params

/-- Names of the `Type` parameters of a list, in order. -/
def typeNames {Ty : Type} : List (GenericParameter Ty) → List (List Char)
  | [] => []
  | .typeParam n _ _ :: rest => n :: typeNames rest
  | .constParam _ _ :: rest => typeNames rest

/-! ## Byte positions (crates/nyx-lexer/src/error.rs)

`position_from_source` is documented as converting a byte offset, but its
loop enumerates characters and compares the character index `i` against the
offset; the two notions are kept distinct here so the discrepancy on
multi-byte input can be stated. -/

/-- Loop body of `position_from_source`: stop once the enumeration index
reaches `offset`, bumping the line on each newline character. -/
def positionGo (offset : Nat) : List Char → Nat → Nat → Nat → Nat × Nat
  | [], _, line, column => (line, column)
  | c :: rest, i, line, column =>
    if offset ≤ i then (line, column)
    else if c = '\n' then positionGo offset rest (i + 1) (line + 1) 1
    else positionGo offset rest (i + 1) line (column + 1)

/-- `LexicalError::position_from_source` (1-based line/column): iterates
`source.chars().enumerate()` and breaks when `i >= offset`. -/
def position_from_source (source : List Char) (offset : Nat) : Nat × Nat :=
  positionGo offset source 0 1 1

/-- UTF-8 encoding of one character (the byte sequence Rust strings use). -/
def utf8Encode (c : Char) : List Nat :=
  let n := c.toNat
  if n < 128 then [n]
  else if n < 2048 then [192 + n / 64, 128 + n % 64]
  else if n < 65536 then
    [224 + n / 4096, 128 + (n / 64) % 64, 128 + n % 64]
  else
    [240 + n / 262144, 128 + (n / 4096) % 64, 128 + (n / 64) % 64,
     128 + n % 64]

/-- The UTF-8 byte string of a source text. -/
def utf8Bytes (source : List Char) : List Nat :=
  (source.map utf8Encode).flatten

/-- The line/column pair the specification describes for a byte offset:
line is 1 plus the number of newline bytes strictly before the offset, and
column is 1 plus the number of characters between the last such newline and
the offset (a character is counted per non-continuation byte). -/
def specLineColOfByte (source : List Char) (offset : Nat) : Nat × Nat :=
  let before := (utf8Bytes source).take offset
  let line := 1 + before.count 10
  let sinceNl := before.reverse.takeWhile (fun b => !(b = 10))
  let column := 1 + (sinceNl.filter (fun b => !(128 ≤ b ∧ b < 192))).length
  (line, column)

/-! ## Supporting lemmas -/

/-- The push loop emits exactly one `Indent` per iteration. -/
theorem indentLoop_tokens (c : Nat) (st : List Nat) (n : Nat) :
    (indentLoop c st n).1 = List.replicate n Token.Indent := by
  induction n with
  | zero => rfl
  | succ k ih => simp [indentLoop, ih, List.replicate_succ']

/-- The push loop lengthens the stack by one level per iteration. -/
theorem indentLoop_stack_length (c : Nat) (st : List Nat) (n : Nat) :
    (indentLoop c st n).2.length = st.length + n := by
  induction n with
  | zero => rfl
  | succ k ih => simp [indentLoop, ih]; omega

/-- The pop loop emits one `Dedent` per popped level and stops at the first
level that is not greater than the new width. -/
theorem dedentLoop_eq (w : Nat) (st : List Nat) :
    dedentLoop w st =
      (List.replicate (st.takeWhile (fun l => decide (w < l))).length
        Token.Dedent,
       st.dropWhile (fun l => decide (w < l))) := by
  induction st with
  | nil => rfl
  | cons a rest ih =>
    by_cases h : a ≤ w
    · simp [dedentLoop, h, List.takeWhile_cons, List.dropWhile_cons,
        Nat.not_lt.mpr h]
    · have h' : w < a := Nat.lt_of_not_le h
      simp [dedentLoop, h, h', List.takeWhile_cons, List.dropWhile_cons, ih,
        List.replicate_succ]

/-- After dropping every level greater than `w`, the new top (if any) is at
most `w`. -/
theorem headD_dropWhile_le (w : Nat) (st : List Nat) :
    (st.dropWhile (fun l => decide (w < l))).headD 0 ≤ w := by
  induction st with
  | nil => simp
  | cons a rest ih =>
    by_cases h : w < a
    · simpa [List.dropWhile_cons, h] using ih
    · simp [List.dropWhile_cons, h]
      omega

/-- `extendFirst` rewrites bounds in place and never changes the sequence
of `Type`-parameter names. -/
theorem typeNames_extendFirst {Ty : Type} (n : List Char) (bs : List Ty)
    (params : List (GenericParameter Ty)) :
    typeNames (extendFirst n bs params) = typeNames params := by
  induction params with
  | nil => rfl
  | cons p rest ih =>
    cases p with
    | typeParam m bounds dft =>
      by_cases h : m = n <;> simp [extendFirst, typeNames, h, ih]
    | constParam m ty => simp [extendFirst, typeNames, ih]

/-- `find` on the parameter list succeeds exactly when the name is among
the `Type`-parameter names. -/
theorem hasTypeParam_iff {Ty : Type} (n : List Char)
    (params : List (GenericParameter Ty)) :
    hasTypeParam n params = true ↔ n ∈ typeNames params := by
  induction params with
  | nil => simp [hasTypeParam, typeNames]
  | cons p rest ih =>
    cases p with
    | typeParam m bounds dft =>
      simp only [hasTypeParam, typeNames, List.mem_cons, Bool.or_eq_true,
        decide_eq_true_eq, ih]
      constructor
      · rintro (h1 | h1)
        · exact Or.inl h1.symm
        · exact Or.inr h1
      · rintro (h1 | h1)
        · exact Or.inl h1.symm
        · exact Or.inr h1
    | constParam m ty => simp [hasTypeParam, typeNames, ih]

/-- `typeNames` distributes over append. -/
theorem typeNames_append {Ty : Type} (a b : List (GenericParameter Ty)) :
    typeNames (a ++ b) = typeNames a ++ typeNames b := by
  induction a with
  | nil => rfl
  | cons p rest ih => cases p <;> simp [typeNames, ih]

/-- Folding one where-clause constraint preserves distinctness of
`Type`-parameter names. -/
theorem nodup_mergeOne {Ty : Type} (params : List (GenericParameter Ty))
    (c : GenericParameter Ty) (h : (typeNames params).Nodup) :
    (typeNames (mergeOne params c)).Nodup := by
  cases c with
  | typeParam n bs dft =>
    by_cases hh : hasTypeParam n params = true
    · simpa [mergeOne, hh, typeNames_extendFirst] using h
    · have hn : n ∉ typeNames params := fun hmem =>
        hh ((hasTypeParam_iff n params).mpr hmem)
      have hrw : typeNames (mergeOne params (.typeParam n bs dft)) =
          typeNames params ++ [n] := by
        simp only [mergeOne]
        rw [if_neg hh, typeNames_append]
        rfl
      rw [hrw]
      simp [List.nodup_append, h, hn]
  | constParam n ty => simpa [mergeOne] using h

/-- Folding a whole where-clause preserves distinctness of
`Type`-parameter names. -/
theorem nodup_merge_fold {Ty : Type} (wc params : List (GenericParameter Ty))
    (h : (typeNames params).Nodup) :
    (typeNames (wc.foldl mergeOne params)).Nodup := by
  induction wc generalizing params with
  | nil => simpa using h
  | cons c rest ih => exact ih (mergeOne params c) (nodup_mergeOne params c h)

/-! ## Claims -/

/-- C1 (counterexample): the returned list can contain two entries with the
same parameter name. A `Const` parameter named `T` does not absorb the
where-clause constraint `T: Send` (the `find` matches only `Type`
parameters), so a second entry named `T` is appended. -/
theorem merge_where_clause_duplicate_name :
    ¬ ((merge_where_clause
        [(GenericParameter.constParam "T".toList "usize".toList :
          GenericParameter (List Char))]
        [GenericParameter.typeParam "T".toList ["Send".toList] none]).map
        GenericParameter.name).Nodup := by decide

/-- C1 (amended): if no two `Type` entries of the initial list share a
name, the merged list has no two `Type` entries with the same name; and
params `[T: Clone]` with where-clause `T: Send` yields exactly one `T`
entry with bounds `[Clone, Send]` in that order. -/
theorem merge_where_clause_nodup :
    (∀ (Ty : Type) (params wc : List (GenericParameter Ty)),
      (typeNames params).Nodup →
      (typeNames (merge_where_clause params wc)).Nodup) ∧
    merge_where_clause
        [(GenericParameter.typeParam "T".toList ["Clone".toList] none :
          GenericParameter (List Char))]
        [GenericParameter.typeParam "T".toList ["Send".toList] none] =
      [GenericParameter.typeParam "T".toList
        ["Clone".toList, "Send".toList] none] := by
  refine ⟨fun Ty params wc h => nodup_merge_fold wc params h, ?_⟩
  decide

/-- C1 (witness): the amended invariant applied to the spec's own example. -/
theorem merge_where_clause_nodup_witness :
    (typeNames [(GenericParameter.typeParam "T".toList ["Clone".toList] none :
      GenericParameter (List Char))]).Nodup ∧
    (typeNames (merge_where_clause
      [(GenericParameter.typeParam "T".toList ["Clone".toList] none :
        GenericParameter (List Char))]
      [GenericParameter.typeParam "T".toList ["Send".toList] none])).Nodup :=
  ⟨by decide,
   merge_where_clause_nodup.1 (List Char)
     [GenericParameter.typeParam "T".toList ["Clone".toList] none]
     [GenericParameter.typeParam "T".toList ["Send".toList] none]
     (by decide)⟩

/-- C3: the layout-aware lexer turns
`"fn test\n    if true\n        let x\nlet y"` into exactly the claimed
sequence, with both dedents consecutive and no dedent flushed at EOF. -/
theorem indentLex_example :
    indentLex ("fn test\n    if true\n        let x\nlet y".toList) =
      [.ok .Fn, .ok (.Ident "test".toList), .ok .Newline, .ok .Indent,
       .ok .If, .ok .True, .ok .Newline, .ok .Indent, .ok .Let,
       .ok (.Ident "x".toList), .ok .Newline, .ok .Dedent, .ok .Dedent,
       .ok .Let, .ok (.Ident "y".toList)] := by decide

/-- C4: a dedent to a width that matches no stack level is not rejected:
the loop pops (one `Dedent` per pop) exactly the levels greater than the
width, and the new top is at most the width. -/
theorem handle_indentation_dedent_snaps (stack : List Nat) (w : Nat)
    (hlt : w < stack.headD 0) (_hnm : w ∉ stack) :
    handle_indentation stack w =
      (List.replicate
        (stack.takeWhile (fun l => decide (w < l))).length Token.Dedent,
       stack.dropWhile (fun l => decide (w < l))) ∧
    (stack.dropWhile (fun l => decide (w < l))).headD 0 ≤ w := by
  constructor
  · unfold handle_indentation
    rw [if_neg (by omega), if_pos hlt]
    exact dedentLoop_eq w stack
  · exact headD_dropWhile_le w stack

/-- C4 (witness): width 2 against stack `[8, 4, 0]` (levels 8 and 4 are
popped with two dedents; the stack snaps to level 0). -/
theorem handle_indentation_dedent_snaps_witness :
    (2 < ([8, 4, 0] : List Nat).headD 0) ∧ 2 ∉ ([8, 4, 0] : List Nat) ∧
    handle_indentation [8, 4, 0] 2 =
      (List.replicate
        (([8, 4, 0] : List Nat).takeWhile (fun l => decide (2 < l))).length
        Token.Dedent,
       ([8, 4, 0] : List Nat).dropWhile (fun l => decide (2 < l))) :=
  ⟨by decide, by decide,
   (handle_indentation_dedent_snaps [8, 4, 0] 2 (by decide) (by decide)).1⟩

/-- C5 (code mismatch): `position_from_source` enumerates characters but is
given a byte offset. On `"é\nx"` at byte offset 3 (the start of the `x`
token) it returns `(2, 2)`, while counting newline bytes before the offset
as documented gives `(2, 1)`. -/
theorem position_from_source_byte_mismatch :
    position_from_source "é\nx".toList 3 = (2, 2) ∧
    specLineColOfByte "é\nx".toList 3 = (2, 1) := by decide

/-- C8: `"2."` lexes as the integer literal `2` followed by `Dot`, never as
a float literal (a decimal point not followed by a digit does not start a
float). -/
theorem rawLex_two_dot :
    rawLex ("2.".toList) =
      [(.ok (.IntegerLiteral ⟨Base.Decimal, "2".toList, none⟩), 0),
       (.ok .Dot, 1)] ∧
    ∀ item ∈ rawLex ("2.".toList), ∀ fl,
      item.1 ≠ .ok (Token.FloatLiteral fl) := by
  refine ⟨by decide, ?_⟩
  intro item hmem fl
  have h : rawLex ("2.".toList) =
      [(.ok (.IntegerLiteral ⟨Base.Decimal, "2".toList, none⟩), 0),
       (.ok .Dot, 1)] := by decide
  rw [h] at hmem
  fin_cases hmem <;> simp

/-- C9: when a line's width exceeds the stack top, the push loop emits one
`Indent` per full 4-unit increment; in particular an excess smaller than 4
emits nothing and leaves the stack unchanged. -/
theorem handle_indentation_quantum (stack : List Nat) (w : Nat)
    (hlt : stack.headD 0 < w) :
    (handle_indentation stack w).1 =
      List.replicate ((w - stack.headD 0) / 4) Token.Indent ∧
    (w - stack.headD 0 < 4 → handle_indentation stack w = ([], stack)) := by
  constructor
  · unfold handle_indentation
    rw [if_pos hlt]
    exact indentLoop_tokens _ _ _
  · intro h4
    unfold handle_indentation
    rw [if_pos hlt, Nat.div_eq_of_lt h4]
    rfl

/-- C9 (witness): width 3 on the initial stack `[0]` (excess 3 < 4) emits
no `Indent` and leaves the stack unchanged. -/
theorem handle_indentation_quantum_witness :
    (([0] : List Nat).headD 0 < 3) ∧ (3 - ([0] : List Nat).headD 0 < 4) ∧
    handle_indentation [0] 3 = ([], [0]) :=
  ⟨by decide, by decide,
   (handle_indentation_quantum [0] 3 (by decide)).2 (by decide)⟩

/-- C10: unescaping is total over accepted literals: each of the seven
escape sequences maps to its control/quote character, and any other
backslash-character pair is preserved verbatim, so no escape sequence is
rejected during tokenization. -/
theorem unescapeInner_escapes (c : Char) (rest : List Char)
    (hc : ¬(c = 'n' ∨ c = 'r' ∨ c = 't' ∨ c = '\\' ∨ c = '0' ∨ c = '\'' ∨
      c = '"')) :
    unescapeInner ('\\' :: 'n' :: rest) = '\n' :: unescapeInner rest ∧
    unescapeInner ('\\' :: 'r' :: rest) = '\r' :: unescapeInner rest ∧
    unescapeInner ('\\' :: 't' :: rest) = '\t' :: unescapeInner rest ∧
    unescapeInner ('\\' :: '\\' :: rest) = '\\' :: unescapeInner rest ∧
    unescapeInner ('\\' :: '0' :: rest) = '\x00' :: unescapeInner rest ∧
    unescapeInner ('\\' :: '\'' :: rest) = '\'' :: unescapeInner rest ∧
    unescapeInner ('\\' :: '"' :: rest) = '"' :: unescapeInner rest ∧
    unescapeInner ('\\' :: c :: rest) = '\\' :: c :: unescapeInner rest := by
  push_neg at hc
  obtain ⟨h1, h2, h3, h4, h5, h6, h7⟩ := hc
  refine ⟨?_, ?_, ?_, ?_, ?_, ?_, ?_, ?_⟩ <;>
    simp [unescapeInner, escapeMap, h1, h2, h3, h4, h5, h6, h7]

/-- C10 (witness): the escape equations at `c = 'x'`, `rest = []`. -/
theorem unescapeInner_escapes_witness :
    unescapeInner ('\\' :: 'n' :: []) = '\n' :: unescapeInner [] ∧
    unescapeInner ('\\' :: 'x' :: []) = '\\' :: 'x' :: unescapeInner [] :=
  ⟨(unescapeInner_escapes 'x' [] (by decide)).1,
   (unescapeInner_escapes 'x' [] (by decide)).2.2.2.2.2.2.2⟩

/-- C7: `parse_integer` fails — with `InvalidInteger` carrying the lexeme's
span and a reason — exactly when the digit string left after stripping the
suffix, the base prefix, and the underscores is empty; otherwise it returns
`Ok` with the structured literal. -/
theorem parse_integer_error_iff (span : Nat × Nat) (raw : List Char) :
    (∀ e, parse_integer span raw = .error e ↔
      (cleanedDigits raw = [] ∧
       e = .InvalidInteger span ("integer literal cannot be empty".toList))) ∧
    (cleanedDigits raw ≠ [] →
      parse_integer span raw =
        .ok ⟨(baseAndDigits (numberPart raw)).1, cleanedDigits raw,
          (findSuffix raw).map (fun p => p.2)⟩) := by
  have hmain : parse_integer span raw =
      if cleanedDigits raw = [] then
        .error (.InvalidInteger span
          ("integer literal cannot be empty".toList))
      else
        .ok ⟨(baseAndDigits (numberPart raw)).1, cleanedDigits raw,
          (findSuffix raw).map (fun p => p.2)⟩ := rfl
  rw [hmain]
  by_cases hc : cleanedDigits raw = [] <;> simp [hc, eq_comm]

/-- C7 (witness): the error case on the digitless lexeme `"0x_"` and the
success case on `"5"`. -/
theorem parse_integer_error_iff_witness :
    parse_integer (0, 3) ("0x_".toList) =
      .error (.InvalidInteger (0, 3)
        ("integer literal cannot be empty".toList)) ∧
    parse_integer (0, 1) ("5".toList) =
      .ok ⟨(baseAndDigits (numberPart "5".toList)).1,
        cleanedDigits "5".toList,
        (findSuffix "5".toList).map (fun p => p.2)⟩ :=
  ⟨((parse_integer_error_iff (0, 3) ("0x_".toList)).1 _).mpr
    ⟨by decide, rfl⟩,
   (parse_integer_error_iff (0, 1) ("5".toList)).2 (by decide)⟩

/-! ## Indent/Dedent balance (C2) -/

/-- Occurrences of a token in a token list. -/
def countT (t : Token) (l : List Token) : Nat :=
  l.countP (fun x => x = t)

/-- Occurrences of an `Ok` token in a layout stream. -/
def countTok (t : Token) (l : List (Except Unit Token)) : Nat :=
  l.countP (fun x => x = .ok t)

theorem countT_replicate (t u : Token) (n : Nat) :
    countT t (List.replicate n u) = if u = t then n else 0 := by
  induction n with
  | zero => simp [countT]
  | succ k ih =>
    simp only [countT, List.replicate_succ, List.countP_cons] at *
    by_cases h : u = t <;> simp [h] at * <;> omega

theorem countT_singleton_ne (t u : Token) (h : ¬ u = t) :
    countT t [u] = 0 := by
  simp [countT, h]

theorem countTok_map_ok (t : Token) (l : List Token) :
    countTok t (l.map .ok) = countT t l := by
  induction l with
  | nil => rfl
  | cons a l ih =>
    simp only [List.map_cons, countTok, countT, List.countP_cons] at *
    have hd : (decide (Except.ok a = (Except.ok t : Except Unit Token))) =
        decide (a = t) := by
      by_cases h : a = t <;> simp [h]
    rw [hd, ih]

theorem countTok_replicate (t u : Token) (n : Nat) :
    countTok t (List.replicate n (.ok u)) = if u = t then n else 0 := by
  induction n with
  | zero => simp [countTok]
  | succ k ih =>
    simp only [countTok, List.replicate_succ, List.countP_cons] at *
    by_cases h : u = t <;> simp [h] at * <;> omega

theorem countTok_singleton_ne (t : Token) (x : Except Unit Token)
    (h : ¬ x = .ok t) : countTok t [x] = 0 := by
  simp [countTok, h]

/-- The stack produced by the push loop extends the input stack. -/
theorem indentLoop_stack_ext (c : Nat) (st : List Nat) (n : Nat) :
    ∃ q, (indentLoop c st n).2 = q ++ st := by
  induction n with
  | zero => exact ⟨[], rfl⟩
  | succ k ih =>
    obtain ⟨q, hq⟩ := ih
    exact ⟨(c + (k + 1) * 4) :: q, by simp [indentLoop, hq]⟩

/-- Dropping levels greater than `w` never drops a trailing base `0`. -/
theorem dropWhile_append_zero (w : Nat) (pre : List Nat) :
    ∃ pre', (pre ++ [0]).dropWhile (fun l => decide (w < l)) = pre' ++ [0] := by
  induction pre with
  | nil => exact ⟨[], by simp⟩
  | cons a pre ih =>
    by_cases h : w < a
    · obtain ⟨p', hp⟩ := ih
      exact ⟨p', by simpa [List.dropWhile_cons, h] using hp⟩
    · exact ⟨a :: pre, by simp [List.dropWhile_cons, h]⟩

/-- Layout tokens emitted by `handle_indentation` balance the change in
stack length: indents emitted plus the old size equal dedents emitted plus
the new size. -/
theorem handle_indentation_count (stack : List Nat) (w : Nat) :
    countT Token.Indent (handle_indentation stack w).1 + stack.length =
    countT Token.Dedent (handle_indentation stack w).1 +
      (handle_indentation stack w).2.length := by
  unfold handle_indentation
  split
  · rw [indentLoop_tokens, indentLoop_stack_length, countT_replicate,
      countT_replicate, if_pos rfl, if_neg (by decide)]
    omega
  · split
    · rw [dedentLoop_eq]
      dsimp only
      have hk : (stack.takeWhile (fun l => decide (w < l))).length +
          (stack.dropWhile (fun l => decide (w < l))).length = stack.length := by
        rw [← List.length_append, List.takeWhile_append_dropWhile]
      have hI : countT Token.Indent
          (List.replicate
            ((stack.takeWhile (fun l => decide (w < l))).length)
            Token.Dedent) = 0 := by
        rw [countT_replicate, if_neg (by decide)]
      have hD : countT Token.Dedent
          (List.replicate
            ((stack.takeWhile (fun l => decide (w < l))).length)
            Token.Dedent) =
          (stack.takeWhile (fun l => decide (w < l))).length := by
        rw [countT_replicate, if_pos rfl]
      rw [hI, hD]
      omega
    · simp [countT]

/-- `handle_indentation` preserves a base `0` at the bottom of the stack. -/
theorem handle_indentation_base (stack : List Nat) (w : Nat)
    (hb : ∃ pre, stack = pre ++ [0]) :
    ∃ pre, (handle_indentation stack w).2 = pre ++ [0] := by
  obtain ⟨pre, rfl⟩ := hb
  unfold handle_indentation
  split
  · obtain ⟨q, hq⟩ := indentLoop_stack_ext ((pre ++ [0]).headD 0) (pre ++ [0])
      ((w - (pre ++ [0]).headD 0) / 4)
    exact ⟨q ++ pre, by rw [hq, List.append_assoc]⟩
  · split
    · rw [dedentLoop_eq]
      exact dropWhile_append_zero w pre
    · exact ⟨pre, rfl⟩

/-- A raw item that is neither an `Indent` nor a `Dedent` token (the
derived lexer never produces layout tokens). -/
def itemNotLayout (it : RawItem) : Prop :=
  it.1 ≠ .ok Token.Indent ∧ it.1 ≠ .ok Token.Dedent

/-- One layout step keeps the indent/dedent count balanced against the
stack length, and keeps the base `0` at the bottom. -/
theorem layoutStep_invariant (source : List Char) (st : IndentState)
    (item : RawItem) (hni : itemNotLayout item)
    (hb : ∃ pre, st.stack = pre ++ [0]) :
    (countTok Token.Indent (layoutStep source st item).1 + st.stack.length =
     countTok Token.Dedent (layoutStep source st item).1 +
       (layoutStep source st item).2.stack.length) ∧
    ∃ pre, (layoutStep source st item).2.stack = pre ++ [0] := by
  obtain ⟨hni1, hni2⟩ := hni
  obtain ⟨x, s⟩ := item
  cases x with
  | error e =>
    refine ⟨?_, hb⟩
    have h1 : countTok Token.Indent [(Except.error () : Except Unit Token)] =
        0 := by decide
    have h2 : countTok Token.Dedent [(Except.error () : Except Unit Token)] =
        0 := by decide
    simp [layoutStep, h1, h2]
  | ok tok =>
    simp only [layoutStep]
    by_cases hnl : tok = Token.Newline
    · subst hnl
      have h1 : countTok Token.Indent [Except.ok Token.Newline] = 0 := by
        decide
      have h2 : countTok Token.Dedent [Except.ok Token.Newline] = 0 := by
        decide
      simp [h1, h2, hb]
    · rw [if_neg hnl]
      have h1 : countTok Token.Indent [Except.ok tok] = 0 :=
        countTok_singleton_ne _ _ (by simpa using hni1)
      have h2 : countTok Token.Dedent [Except.ok tok] = 0 :=
        countTok_singleton_ne _ _ (by simpa using hni2)
      by_cases hl : st.lastNl
      · rw [if_pos hl]
        by_cases hbl : is_blank_or_comment_line source s
        · simp [hbl, h1, h2, hb]
        · simp only [hbl, Bool.not_false, if_pos]
          constructor
          · rw [countTok_map_ok, countTok_map_ok]
            simp only [countT, List.countP_append]
            have hc := handle_indentation_count st.stack
              (calculate_line_indentation source s)
            have ht1 : countT Token.Indent [tok] = 0 :=
              countT_singleton_ne _ _ (by
                intro h; exact hni1 (by simp [h]))
            have ht2 : countT Token.Dedent [tok] = 0 :=
              countT_singleton_ne _ _ (by
                intro h; exact hni2 (by simp [h]))
            simp only [countT] at hc ht1 ht2
            omega
          · exact handle_indentation_base st.stack _ hb
      · rw [if_neg hl]
        simp [h1, h2, hb]

/-- The balance invariant carried over the whole raw stream. -/
theorem runLayout_invariant (source : List Char) :
    ∀ (items : List RawItem) (st : IndentState),
      (∀ it ∈ items, itemNotLayout it) →
      (∃ pre, st.stack = pre ++ [0]) →
      (countTok Token.Indent (runLayout source items st).1 +
         st.stack.length =
       countTok Token.Dedent (runLayout source items st).1 +
         (runLayout source items st).2.stack.length) ∧
      ∃ pre, (runLayout source items st).2.stack = pre ++ [0] := by
  intro items
  induction items with
  | nil =>
    intro st _ hb
    refine ⟨?_, hb⟩
    simp [runLayout, countTok]
  | cons item rest ih =>
    intro st hall hb
    have h1 := layoutStep_invariant source st item (hall item (by simp)) hb
    have h2 := ih (layoutStep source st item).2
      (fun it hit => hall it (by simp [hit])) h1.2
    constructor
    · have e1 := h1.1
      have e2 := h2.1
      simp only [runLayout, countTok, List.countP_append] at *
      omega
    · simpa [runLayout] using h2.2

/-- `pickBest` returns an element of its input list. -/
theorem pickBest_mem :
    ∀ (l : List (Nat × Emission)) (q : Nat × Emission),
      pickBest l = some q → q ∈ l := by
  intro l
  induction l with
  | nil => intro q h; simp [pickBest] at h
  | cons p rest ih =>
    intro q h
    unfold pickBest at h
    cases hr : pickBest rest with
    | some r =>
      rw [hr] at h
      dsimp only at h
      by_cases h0 : p.1 = 0
      · rw [if_pos h0] at h
        injection h with h
        exact List.mem_cons_of_mem _ (by rw [← h]; exact ih r hr)
      · rw [if_neg h0] at h
        by_cases hlt : p.1 < r.1
        · rw [if_pos hlt] at h
          injection h with h
          exact List.mem_cons_of_mem _ (by rw [← h]; exact ih r hr)
        · rw [if_neg hlt] at h
          injection h with h
          rw [← h]
          exact List.mem_cons_self p rest
    | none =>
      rw [hr] at h
      dsimp only at h
      by_cases h0 : p.1 = 0
      · rw [if_pos h0] at h; exact absurd h (by simp)
      · rw [if_neg h0] at h
        injection h with h
        rw [← h]
        exact List.mem_cons_self p rest

/-- Every fixed-table token is a real token, not a layout marker. -/
theorem fixedTokens_notLayout :
    ∀ p ∈ fixedTokens, p.2 ≠ Token.Indent ∧ p.2 ≠ Token.Dedent := by decide

/-- The fixed-token fold only ever returns table tokens. -/
theorem fixedStep_fold_notLayout (l : List Char) :
    ∀ (tbl : List (List Char × Token)),
      (∀ p ∈ tbl, p.2 ≠ Token.Indent ∧ p.2 ≠ Token.Dedent) →
      ∀ (acc : Option (Nat × Token)),
        (∀ q, acc = some q → q.2 ≠ Token.Indent ∧ q.2 ≠ Token.Dedent) →
        ∀ q, tbl.foldl (fixedStep l) acc = some q →
          q.2 ≠ Token.Indent ∧ q.2 ≠ Token.Dedent := by
  intro tbl
  induction tbl with
  | nil => intro _ acc hacc q h; exact hacc q h
  | cons a tbl ih =>
    intro htbl acc hacc q h
    refine ih (fun p hp => htbl p (List.mem_cons_of_mem a hp)) _ ?_ q h
    intro q' hq'
    unfold fixedStep at hq'
    by_cases hpre : a.1.isPrefixOf l
    · rw [if_pos hpre] at hq'
      cases hacc' : acc with
      | some r =>
        rw [hacc'] at hq'
        dsimp only at hq'
        by_cases hlen : r.1 < a.1.length
        · rw [if_pos hlen] at hq'
          injection hq' with hq'
          rw [← hq']
          exact htbl a (List.mem_cons_self a tbl)
        · rw [if_neg hlen] at hq'
          exact hacc q' (by rw [hacc']; exact hq')
      | none =>
        rw [hacc'] at hq'
        dsimp only at hq'
        injection hq' with hq'
        rw [← hq']
        exact htbl a (List.mem_cons_self a tbl)
    · rw [if_neg hpre] at hq'
      exact hacc q' hq'

/-- `bestFixed` never returns a layout marker. -/
theorem bestFixed_notLayout (l : List Char) (q : Nat × Token)
    (h : bestFixed l = some q) :
    q.2 ≠ Token.Indent ∧ q.2 ≠ Token.Dedent :=
  fixedStep_fold_notLayout l fixedTokens fixedTokens_notLayout none
    (by intro q' h'; exact absurd h' (by simp)) q h

/-- No rule family ever emits a layout marker. -/
theorem candidates_tokE (l : List Char) (pos n : Nat) (t : Token)
    (hmem : (n, Emission.tokE t) ∈ candidates l pos) :
    t ≠ Token.Indent ∧ t ≠ Token.Dedent := by
  simp only [candidates] at hmem
  rcases List.mem_cons.mp hmem with h | hmem
  · exact absurd (congrArg Prod.snd h) (by simp)
  rcases List.mem_cons.mp hmem with h | hmem
  · exact absurd (congrArg Prod.snd h) (by simp)
  rcases List.mem_cons.mp hmem with h | hmem
  · exact absurd (congrArg Prod.snd h) (by simp)
  rcases List.mem_cons.mp hmem with h | hmem
  · have hsnd := congrArg Prod.snd h
    dsimp only at hsnd
    injection hsnd with h2
    subst h2
    exact ⟨by decide, by decide⟩
  rcases List.mem_cons.mp hmem with h | hmem
  · have hsnd := congrArg Prod.snd h
    cases hbf : bestFixed l with
    | some q =>
      rw [hbf] at hsnd
      dsimp only at hsnd
      injection hsnd with h2
      subst h2
      exact bestFixed_notLayout l q hbf
    | none =>
      rw [hbf] at hsnd
      exact absurd hsnd (by simp)
  rcases List.mem_cons.mp hmem with h | hmem
  · have hsnd := congrArg Prod.snd h
    dsimp only at hsnd
    injection hsnd with h2
    subst h2
    exact ⟨by simp, by simp⟩
  rcases List.mem_cons.mp hmem with h | hmem
  · have hsnd := congrArg Prod.snd h
    cases hpf : parse_float (l.take (matchFloat l)) with
    | some v =>
      rw [hpf] at hsnd
      dsimp only at hsnd
      injection hsnd with h2
      subst h2
      exact ⟨by simp, by simp⟩
    | none =>
      rw [hpf] at hsnd
      exact absurd hsnd (by simp)
  rcases List.mem_cons.mp hmem with h | hmem
  · have hsnd := congrArg Prod.snd h
    cases hpi : parse_integer (pos, pos + matchInteger l)
        (l.take (matchInteger l)) with
    | ok v =>
      rw [hpi] at hsnd
      dsimp only at hsnd
      injection hsnd with h2
      subst h2
      exact ⟨by simp, by simp⟩
    | error e =>
      rw [hpi] at hsnd
      exact absurd hsnd (by simp)
  rcases List.mem_cons.mp hmem with h | hmem
  · have hsnd := congrArg Prod.snd h
    dsimp only at hsnd
    injection hsnd with h2
    subst h2
    exact ⟨by simp, by simp⟩
  rcases List.mem_cons.mp hmem with h | hmem
  · have hsnd := congrArg Prod.snd h
    dsimp only at hsnd
    injection hsnd with h2
    subst h2
    exact ⟨by simp, by simp⟩
  · exact absurd hmem (by simp)

/-- Items emitted by one scanner step are never layout markers. -/
theorem scanOne_notLayout (l : List Char) (pos : Nat) (it : RawItem)
    (h : (scanOne l pos).2 = some it) : itemNotLayout it := by
  unfold scanOne at h
  cases hpick : pickBest (candidates l pos) with
  | none =>
    rw [hpick] at h
    simp only [Option.some.injEq] at h
    subst h
    exact ⟨by simp, by simp⟩
  | some q =>
    rw [hpick] at h
    obtain ⟨nq, eq⟩ := q
    cases eq with
    | skipE => simp at h
    | tokE t =>
      simp only [Option.some.injEq] at h
      subst h
      have := candidates_tokE l pos nq t (pickBest_mem _ _ hpick)
      exact ⟨by simpa using this.1, by simpa using this.2⟩
    | errE =>
      simp only [Option.some.injEq] at h
      subst h
      exact ⟨by simp, by simp⟩

/-- The scanner loop stops when the fuel is exhausted. -/
theorem rawLexGo_zero (l : List Char) (pos : Nat) : rawLexGo 0 l pos = [] := by
  cases l <;> rfl

/-- The scanner loop stops on empty input. -/
theorem rawLexGo_nil (fuel : Nat) (pos : Nat) : rawLexGo fuel [] pos = [] := by
  cases fuel <;> rfl

/-- Unfolding equation of the scanner loop on a non-empty input. -/
theorem rawLexGo_succ_cons (k : Nat) (c : Char) (cs : List Char) (pos : Nat) :
    rawLexGo (k + 1) (c :: cs) pos =
      match scanOne (c :: cs) pos with
      | (n, some it) => it :: rawLexGo k ((c :: cs).drop n) (pos + n)
      | (n, none) => rawLexGo k ((c :: cs).drop n) (pos + n) := rfl

/-- No item of the raw stream is a layout marker. -/
theorem rawLexGo_notLayout :
    ∀ (fuel : Nat) (l : List Char) (pos : Nat) (it : RawItem),
      it ∈ rawLexGo fuel l pos → itemNotLayout it := by
  intro fuel
  induction fuel with
  | zero =>
    intro l pos it h
    rw [rawLexGo_zero] at h
    exact absurd h (List.not_mem_nil it)
  | succ k ih =>
    intro l pos it h
    cases l with
    | nil =>
      rw [rawLexGo_nil] at h
      exact absurd h (List.not_mem_nil it)
    | cons c cs =>
      rw [rawLexGo_succ_cons] at h
      have hgen : ∃ sres, scanOne (c :: cs) pos = sres := ⟨_, rfl⟩
      obtain ⟨⟨nn, oo⟩, hscan⟩ := hgen
      rw [hscan] at h
      cases oo with
      | some it0 =>
        dsimp only at h
        rcases List.mem_cons.mp h with rfl | h2
        · exact scanOne_notLayout _ _ _ (by rw [hscan])
        · exact ih _ _ it h2
      | none =>
        dsimp only at h
        exact ih _ _ it h

/-- C2: across the whole layout-aware stream of any input, including the
dedents flushed at end of input, the number of `Indent` tokens equals the
number of `Dedent` tokens. -/
theorem indent_dedent_balance (source : List Char) :
    countTok Token.Indent (indentLex source) =
    countTok Token.Dedent (indentLex source) := by
  have hinv := runLayout_invariant source (rawLex source) ⟨[0], false⟩
    (fun it hit => rawLexGo_notLayout _ _ _ it hit) ⟨[], rfl⟩
  obtain ⟨hcount, pre, hpre⟩ := hinv
  unfold indentLex
  have hinit : (⟨[0], false⟩ : IndentState).stack.length = 1 := rfl
  have hlen : (runLayout source (rawLex source) ⟨[0], false⟩).2.stack.length =
      pre.length + 1 := by rw [hpre]; simp
  have hflI : countTok Token.Indent
      (List.replicate ((runLayout source (rawLex source)
        ⟨[0], false⟩).2.stack.length - 1) (.ok Token.Dedent)) = 0 := by
    rw [countTok_replicate, if_neg (by decide)]
  have hflD : countTok Token.Dedent
      (List.replicate ((runLayout source (rawLex source)
        ⟨[0], false⟩).2.stack.length - 1) (.ok Token.Dedent)) =
      (runLayout source (rawLex source) ⟨[0], false⟩).2.stack.length - 1 := by
    rw [countTok_replicate, if_pos rfl]
  simp only [countTok, List.countP_append, List.length_cons,
    List.length_nil] at hcount hflI hflD hinit ⊢
  omega

/-! ## Integer lexemes and underscore invariance (C6)

A lexeme accepted by one of the four integer-literal regexes is a base
body followed by an optional suffix from the table. The development below
shows `parse_integer` gives the same literal before and after removing the
`_` separators of such a lexeme. -/

/-- Removing the `_` separators (`replace('_', "")`). -/
def eraseU (l : List Char) : List Char := l.filter (fun c => !(c = '_'))

/-- Body of the decimal integer regex `[0-9][_0-9]*`. -/
def decBody : List Char → Bool
  | [] => false
  | c :: cs => c.isDigit && cs.all isDigitU

/-- Body of the binary integer regex `0b[01][_01]*`. -/
def binBody : List Char → Bool
  | c0 :: c1 :: c :: cs =>
    c0 = '0' && c1 = 'b' && isBinDigit c &&
      cs.all (fun x => isBinDigit x || x = '_')
  | _ => false

/-- The `_?[0-7][_0-7]*` tail of the octal regex. -/
def octTail : List Char → Bool
  | [] => false
  | c :: cs =>
    if c = '_' then
      match cs with
      | c2 :: cs2 =>
        isOctDigit c2 && cs2.all (fun x => isOctDigit x || x = '_')
      | [] => false
    else isOctDigit c && cs.all (fun x => isOctDigit x || x = '_')

/-- Body of the octal integer regex `0o_?[0-7][_0-7]*`. -/
def octBody : List Char → Bool
  | c0 :: c1 :: rest => c0 = '0' && c1 = 'o' && octTail rest
  | _ => false

/-- The `_?[0-9a-fA-F][_0-9a-fA-F]*` tail of the hex regex. -/
def hexTail : List Char → Bool
  | [] => false
  | c :: cs =>
    if c = '_' then
      match cs with
      | c2 :: cs2 =>
        isHexDigit c2 && cs2.all (fun x => isHexDigit x || x = '_')
      | [] => false
    else isHexDigit c && cs.all (fun x => isHexDigit x || x = '_')

/-- Body of the hex integer regex `0x_?[0-9a-fA-F][_0-9a-fA-F]*`. -/
def hexBody : List Char → Bool
  | c0 :: c1 :: rest => c0 = '0' && c1 = 'x' && hexTail rest
  | _ => false

/-- A body in one of the four bases. -/
def bodyOK (s : List Char) : Bool :=
  decBody s || binBody s || octBody s || hexBody s

/-- A string matched by one of the four integer-literal regexes: a body
optionally followed by a suffix from the table. -/
def isIntegerLexeme (s : List Char) : Bool :=
  bodyOK s ||
    SUFFIXES.any
      (fun p => p.1.isSuffixOf s && bodyOK (s.take (s.length - p.1.length)))

/-- Every suffix spelling contains a `u` or an `i`. -/
theorem SUFFIXES_mem_ui : ∀ p ∈ SUFFIXES, 'u' ∈ p.1 ∨ 'i' ∈ p.1 := by decide

/-- No suffix spelling is a suffix of a different one. -/
theorem SUFFIXES_pairwise_suffix :
    ∀ p ∈ SUFFIXES, ∀ q ∈ SUFFIXES, p.1.isSuffixOf q.1 = true → p = q := by
  decide

/-- Suffix spellings contain no underscores. -/
theorem SUFFIXES_no_underscore : ∀ p ∈ SUFFIXES, eraseU p.1 = p.1 := by decide

/-- A character of a class that excludes `u` and `i` is neither. -/
theorem class_ne_ui (P : Char → Bool) (hu : P 'u' = false) (hi : P 'i' = false)
    (x : Char) (h : P x = true) : ¬ x = 'u' ∧ ¬ x = 'i' :=
  ⟨fun he => by subst he; rw [hu] at h; exact absurd h (by simp),
   fun he => by subst he; rw [hi] at h; exact absurd h (by simp)⟩

/-- Characters of an octal/hex style tail avoid `u` and `i`. -/
theorem octTail_no_ui (rest : List Char) (h : octTail rest = true) :
    ∀ x ∈ rest, ¬ x = 'u' ∧ ¬ x = 'i' := by
  intro x hx
  cases rest with
  | nil => simp [octTail] at h
  | cons c cs =>
    by_cases hc : c = '_'
    · subst hc
      cases cs with
      | nil => simp [octTail] at h
      | cons c2 cs2 =>
        rw [octTail.eq_def] at h
        dsimp only at h
        rw [if_pos rfl] at h
        simp only [Bool.and_eq_true, List.all_eq_true] at h
        rcases List.mem_cons.mp hx with rfl | hx2
        · exact ⟨by decide, by decide⟩
        rcases List.mem_cons.mp hx2 with rfl | hx3
        · exact class_ne_ui isOctDigit (by decide) (by decide) x h.1
        · exact class_ne_ui (fun y => isOctDigit y || y = '_') (by decide)
            (by decide) x (h.2 x hx3)
    · rw [octTail.eq_def] at h
      dsimp only at h
      rw [if_neg hc] at h
      simp only [Bool.and_eq_true, List.all_eq_true] at h
      rcases List.mem_cons.mp hx with rfl | hx2
      · exact class_ne_ui isOctDigit (by decide) (by decide) x h.1
      · exact class_ne_ui (fun y => isOctDigit y || y = '_') (by decide)
          (by decide) x (h.2 x hx2)

theorem hexTail_no_ui (rest : List Char) (h : hexTail rest = true) :
    ∀ x ∈ rest, ¬ x = 'u' ∧ ¬ x = 'i' := by
  intro x hx
  cases rest with
  | nil => simp [hexTail] at h
  | cons c cs =>
    by_cases hc : c = '_'
    · subst hc
      cases cs with
      | nil => simp [hexTail] at h
      | cons c2 cs2 =>
        rw [hexTail.eq_def] at h
        dsimp only at h
        rw [if_pos rfl] at h
        simp only [Bool.and_eq_true, List.all_eq_true] at h
        rcases List.mem_cons.mp hx with rfl | hx2
        · exact ⟨by decide, by decide⟩
        rcases List.mem_cons.mp hx2 with rfl | hx3
        · exact class_ne_ui isHexDigit (by decide) (by decide) x h.1
        · exact class_ne_ui (fun y => isHexDigit y || y = '_') (by decide)
            (by decide) x (h.2 x hx3)
    · rw [hexTail.eq_def] at h
      dsimp only at h
      rw [if_neg hc] at h
      simp only [Bool.and_eq_true, List.all_eq_true] at h
      rcases List.mem_cons.mp hx with rfl | hx2
      · exact class_ne_ui isHexDigit (by decide) (by decide) x h.1
      · exact class_ne_ui (fun y => isHexDigit y || y = '_') (by decide)
          (by decide) x (h.2 x hx2)

/-- Characters of a base body avoid `u` and `i` (so no suffix can end
inside a body). -/
theorem bodyOK_no_ui (d : List Char) (h : bodyOK d = true) :
    ∀ x ∈ d, ¬ x = 'u' ∧ ¬ x = 'i' := by
  intro x hx
  simp only [bodyOK, Bool.or_eq_true] at h
  rcases h with ((hdec | hbin) | hoct) | hhex
  · cases d with
    | nil => simp [decBody] at hdec
    | cons c cs =>
      simp only [decBody, Bool.and_eq_true, List.all_eq_true] at hdec
      rcases List.mem_cons.mp hx with rfl | hx2
      · exact class_ne_ui Char.isDigit (by decide) (by decide) x hdec.1
      · exact class_ne_ui isDigitU (by decide) (by decide) x (hdec.2 x hx2)
  · cases d with
    | nil => simp [binBody] at hbin
    | cons c0 d1 =>
      cases d1 with
      | nil => simp [binBody] at hbin
      | cons c1 d2 =>
        cases d2 with
        | nil => simp [binBody] at hbin
        | cons c d3 =>
          simp only [binBody, Bool.and_eq_true, decide_eq_true_eq,
            List.all_eq_true] at hbin
          obtain ⟨⟨⟨h0, h1⟩, h2⟩, h3⟩ := hbin
          subst h0; subst h1
          rcases List.mem_cons.mp hx with rfl | hx2
          · exact ⟨by decide, by decide⟩
          rcases List.mem_cons.mp hx2 with rfl | hx3
          · exact ⟨by decide, by decide⟩
          rcases List.mem_cons.mp hx3 with rfl | hx4
          · exact class_ne_ui isBinDigit (by decide) (by decide) x h2
          · exact class_ne_ui (fun y => isBinDigit y || y = '_') (by decide)
              (by decide) x (h3 x hx4)
  · cases d with
    | nil => simp [octBody] at hoct
    | cons c0 d1 =>
      cases d1 with
      | nil => simp [octBody] at hoct
      | cons c1 rest =>
        simp only [octBody, Bool.and_eq_true, decide_eq_true_eq] at hoct
        obtain ⟨⟨h0, h1⟩, h2⟩ := hoct
        subst h0; subst h1
        rcases List.mem_cons.mp hx with rfl | hx2
        · exact ⟨by decide, by decide⟩
        rcases List.mem_cons.mp hx2 with rfl | hx3
        · exact ⟨by decide, by decide⟩
        · exact octTail_no_ui rest h2 x hx3
  · cases d with
    | nil => simp [hexBody] at hhex
    | cons c0 d1 =>
      cases d1 with
      | nil => simp [hexBody] at hhex
      | cons c1 rest =>
        simp only [hexBody, Bool.and_eq_true, decide_eq_true_eq] at hhex
        obtain ⟨⟨h0, h1⟩, h2⟩ := hhex
        subst h0; subst h1
        rcases List.mem_cons.mp hx with rfl | hx2
        · exact ⟨by decide, by decide⟩
        rcases List.mem_cons.mp hx2 with rfl | hx3
        · exact ⟨by decide, by decide⟩
        · exact hexTail_no_ui rest h2 x hx3

/-- On a string with no `u` and no `i`, the suffix search fails. -/
theorem findSuffix_eq_none (d : List Char)
    (hd : ∀ x ∈ d, ¬ x = 'u' ∧ ¬ x = 'i') : findSuffix d = none := by
  unfold findSuffix
  rw [List.find?_eq_none]
  intro p hp hsuf
  have hsub : ∀ x ∈ p.1, x ∈ d := fun x hx =>
    List.IsSuffix.mem hx (List.isSuffixOf_iff_suffix.mp hsuf)
  rcases SUFFIXES_mem_ui p hp with hu | hi
  · exact (hd 'u' (hsub 'u' hu)).1 rfl
  · exact (hd 'i' (hsub 'i' hi)).2 rfl

/-- `find?` returns the unique matching element. -/
theorem find?_unique {α : Type} (l : List α) (pred : α → Bool) (p : α)
    (hp : p ∈ l) (huniq : ∀ q ∈ l, pred q = true ↔ q = p) :
    l.find? pred = some p := by
  induction l with
  | nil => cases hp
  | cons a l ih =>
    by_cases ha : pred a = true
    · rw [List.find?_cons_of_pos _ ha]
      exact congrArg some ((huniq a (List.mem_cons_self a l)).mp ha)
    · rw [List.find?_cons_of_neg _ (by simpa using ha)]
      rcases List.mem_cons.mp hp with rfl | hp2
      · exact absurd ((huniq p (List.mem_cons_self p l)).mpr rfl) ha
      · exact ih hp2 (fun q hq => huniq q (List.mem_cons_of_mem a hq))

/-- Appending a table suffix to any string makes the suffix search find
exactly that table entry, regardless of the string. -/
theorem findSuffix_append (d : List Char) (p : List Char × IntegerSuffix)
    (hp : p ∈ SUFFIXES) : findSuffix (d ++ p.1) = some p := by
  unfold findSuffix
  refine find?_unique _ _ _ hp ?_
  intro q hq
  constructor
  · intro hsuf
    have h1 : q.1 <:+ d ++ p.1 := List.isSuffixOf_iff_suffix.mp hsuf
    have h2 : p.1 <:+ d ++ p.1 := List.suffix_append d p.1
    rcases List.suffix_or_suffix_of_suffix h1 h2 with hqp | hpq
    · exact SUFFIXES_pairwise_suffix q hq p hp
        (List.isSuffixOf_iff_suffix.mpr hqp)
    · exact (SUFFIXES_pairwise_suffix p hp q hq
        (List.isSuffixOf_iff_suffix.mpr hpq)).symm
  · rintro rfl
    exact List.isSuffixOf_iff_suffix.mpr (List.suffix_append d q.1)

/-- Stripping the found suffix from `body ++ suffix` yields the body. -/
theorem numberPart_append (d : List Char) (p : List Char × IntegerSuffix)
    (hp : p ∈ SUFFIXES) : numberPart (d ++ p.1) = d := by
  unfold numberPart
  rw [findSuffix_append d p hp]
  have hl : (d ++ p.1).length - p.1.length = d.length := by
    simp [List.length_append]
  dsimp only
  rw [hl, List.take_left]

theorem numberPart_of_none (s : List Char) (h : findSuffix s = none) :
    numberPart s = s := by
  unfold numberPart
  rw [h]

theorem filter_idem (p : Char → Bool) (l : List Char) :
    (l.filter p).filter p = l.filter p := by
  induction l with
  | nil => rfl
  | cons a l ih => by_cases h : p a <;> simp [List.filter_cons, h, ih]

/-- Base detection and the final digit cleaning agree on a body and its
underscore-erased form. -/
theorem bodyOK_base_digits (d : List Char) (h : bodyOK d = true) :
    (baseAndDigits d).1 = (baseAndDigits (eraseU d)).1 ∧
    eraseU (baseAndDigits d).2 = eraseU (baseAndDigits (eraseU d)).2 := by
  have h0b : "0b".toList = ['0', 'b'] := rfl
  have h0o : "0o".toList = ['0', 'o'] := rfl
  have h0x : "0x".toList = ['0', 'x'] := rfl
  simp only [bodyOK, Bool.or_eq_true] at h
  rcases h with ((hdec | hbin) | hoct) | hhex
  · -- decimal: no base prefix can occur
    cases d with
    | nil => simp [decBody] at hdec
    | cons c cs =>
      simp only [decBody, Bool.and_eq_true, List.all_eq_true] at hdec
      obtain ⟨hc, hcs⟩ := hdec
      have hcne : ¬ c = '_' := fun he => by
        subst he; exact absurd hc (by decide)
      have he1 : eraseU (c :: cs) = c :: eraseU cs := by
        simp [eraseU, List.filter_cons, hcne]
      have noPre : ∀ (b : Char), isDigitU b = false →
          ∀ t : List Char, (∀ x ∈ t, isDigitU x = true) →
          ¬ (List.isPrefixOf ['0', b] (c :: t) = true) := by
        intro b hb t ht hpre
        cases t with
        | nil => simp [List.isPrefixOf] at hpre
        | cons x xs =>
          simp only [List.isPrefixOf, Bool.and_eq_true, beq_iff_eq] at hpre
          have hxb : x = b := hpre.2.1.symm
          have := ht x (List.mem_cons_self x xs)
          rw [hxb, hb] at this
          exact absurd this (by simp)
      have key : ∀ t : List Char, (∀ x ∈ t, isDigitU x = true) →
          baseAndDigits (c :: t) = (Base.Decimal, c :: t) := by
        intro t ht
        unfold baseAndDigits
        rw [h0b, h0o, h0x, if_neg (noPre 'b' (by decide) t ht),
          if_neg (noPre 'o' (by decide) t ht),
          if_neg (noPre 'x' (by decide) t ht)]
      have e1 := key cs hcs
      have e2 := key (eraseU cs)
        (fun x hx => hcs x (List.mem_of_mem_filter hx))
      rw [he1, e1, e2]
      refine ⟨rfl, ?_⟩
      show eraseU (c :: cs) = eraseU (c :: eraseU cs)
      simp only [eraseU, List.filter_cons, hcne]
      rw [filter_idem]
  · -- binary
    cases d with
    | nil => simp [binBody] at hbin
    | cons c0 d1 =>
      cases d1 with
      | nil => simp [binBody] at hbin
      | cons c1 d2 =>
        cases d2 with
        | nil => simp [binBody] at hbin
        | cons c d3 =>
          simp only [binBody, Bool.and_eq_true, decide_eq_true_eq,
            List.all_eq_true] at hbin
          obtain ⟨⟨⟨h0, h1⟩, h2⟩, h3⟩ := hbin
          subst h0; subst h1
          have hcne : ¬ c = '_' := fun he => by
            subst he; exact absurd h2 (by decide)
          have he1 : eraseU ('0' :: 'b' :: c :: d3) =
              '0' :: 'b' :: c :: eraseU d3 := by
            simp [eraseU, List.filter_cons, hcne]
          have hpre1 : List.isPrefixOf ['0', 'b'] ('0' :: 'b' :: c :: d3) =
              true := by simp [List.isPrefixOf]
          have hpre2 : List.isPrefixOf ['0', 'b']
              ('0' :: 'b' :: c :: eraseU d3) = true := by
            simp [List.isPrefixOf]
          unfold baseAndDigits
          rw [he1, h0b, if_pos hpre1, if_pos hpre2]
          refine ⟨rfl, ?_⟩
          show eraseU (c :: d3) = eraseU (c :: eraseU d3)
          simp only [eraseU, List.filter_cons, hcne]
          rw [filter_idem]
  · -- octal
    cases d with
    | nil => simp [octBody] at hoct
    | cons c0 d1 =>
      cases d1 with
      | nil => simp [octBody] at hoct
      | cons c1 rest =>
        simp only [octBody, Bool.and_eq_true, decide_eq_true_eq] at hoct
        obtain ⟨⟨h0, h1⟩, _⟩ := hoct
        subst h0; subst h1
        have he1 : eraseU ('0' :: 'o' :: rest) =
            '0' :: 'o' :: eraseU rest := by
          simp [eraseU, List.filter_cons]
        have hb1 : List.isPrefixOf ['0', 'b'] ('0' :: 'o' :: rest) = false := by
          simp [List.isPrefixOf]
        have hb2 : List.isPrefixOf ['0', 'b']
            ('0' :: 'o' :: eraseU rest) = false := by
          simp [List.isPrefixOf]
        have ho1 : List.isPrefixOf ['0', 'o'] ('0' :: 'o' :: rest) = true := by
          simp [List.isPrefixOf]
        have ho2 : List.isPrefixOf ['0', 'o']
            ('0' :: 'o' :: eraseU rest) = true := by
          simp [List.isPrefixOf]
        unfold baseAndDigits
        rw [he1, h0b, h0o, hb1, hb2, if_pos ho1, if_pos ho2]
        simp only [Bool.false_eq_true, if_false]
        exact ⟨trivial, (filter_idem _ rest).symm⟩
  · -- hex
    cases d with
    | nil => simp [hexBody] at hhex
    | cons c0 d1 =>
      cases d1 with
      | nil => simp [hexBody] at hhex
      | cons c1 rest =>
        simp only [hexBody, Bool.and_eq_true, decide_eq_true_eq] at hhex
        obtain ⟨⟨h0, h1⟩, _⟩ := hhex
        subst h0; subst h1
        have he1 : eraseU ('0' :: 'x' :: rest) =
            '0' :: 'x' :: eraseU rest := by
          simp [eraseU, List.filter_cons]
        have hb1 : List.isPrefixOf ['0', 'b'] ('0' :: 'x' :: rest) = false := by
          simp [List.isPrefixOf]
        have hb2 : List.isPrefixOf ['0', 'b']
            ('0' :: 'x' :: eraseU rest) = false := by
          simp [List.isPrefixOf]
        have ho1 : List.isPrefixOf ['0', 'o'] ('0' :: 'x' :: rest) = false := by
          simp [List.isPrefixOf]
        have ho2 : List.isPrefixOf ['0', 'o']
            ('0' :: 'x' :: eraseU rest) = false := by
          simp [List.isPrefixOf]
        have hx1 : List.isPrefixOf ['0', 'x'] ('0' :: 'x' :: rest) = true := by
          simp [List.isPrefixOf]
        have hx2 : List.isPrefixOf ['0', 'x']
            ('0' :: 'x' :: eraseU rest) = true := by
          simp [List.isPrefixOf]
        unfold baseAndDigits
        rw [he1, h0b, h0o, h0x, hb1, hb2, ho1, ho2, if_pos hx1, if_pos hx2]
        simp only [Bool.false_eq_true, if_false]
        exact ⟨trivial, (filter_idem _ rest).symm⟩

/-- `parse_integer` depends only on the found suffix, the detected base,
and the cleaned digits. -/
theorem parse_integer_congr (span : Nat × Nat) (s s' : List Char)
    (hsuf : findSuffix s = findSuffix s')
    (hbase : (baseAndDigits (numberPart s)).1 =
      (baseAndDigits (numberPart s')).1)
    (hdig : eraseU (baseAndDigits (numberPart s)).2 =
      eraseU (baseAndDigits (numberPart s')).2) :
    parse_integer span s = parse_integer span s' := by
  have e1 : parse_integer span s =
      if eraseU (baseAndDigits (numberPart s)).2 = [] then
        .error (.InvalidInteger span
          ("integer literal cannot be empty".toList))
      else
        .ok ⟨(baseAndDigits (numberPart s)).1,
          eraseU (baseAndDigits (numberPart s)).2,
          (findSuffix s).map (fun p => p.2)⟩ := rfl
  have e2 : parse_integer span s' =
      if eraseU (baseAndDigits (numberPart s')).2 = [] then
        .error (.InvalidInteger span
          ("integer literal cannot be empty".toList))
      else
        .ok ⟨(baseAndDigits (numberPart s')).1,
          eraseU (baseAndDigits (numberPart s')).2,
          (findSuffix s').map (fun p => p.2)⟩ := rfl
  rw [e1, e2, hsuf, hbase, hdig]

/-- Normalisation: on an integer lexeme, `parse_integer` gives the same
result before and after removing the `_` separators. -/
theorem parse_integer_norm (span : Nat × Nat) (s : List Char)
    (h : isIntegerLexeme s = true) :
    parse_integer span s = parse_integer span (eraseU s) := by
  unfold isIntegerLexeme at h
  simp only [Bool.or_eq_true, List.any_eq_true, Bool.and_eq_true] at h
  rcases h with hbody | ⟨p, hp, hsuf, hbody⟩
  · have hni := bodyOK_no_ui s hbody
    have hni2 : ∀ x ∈ eraseU s, ¬ x = 'u' ∧ ¬ x = 'i' :=
      fun x hx => hni x (List.mem_of_mem_filter hx)
    have f1 := findSuffix_eq_none s hni
    have f2 := findSuffix_eq_none (eraseU s) hni2
    refine parse_integer_congr span _ _ ?_ ?_ ?_
    · rw [f1, f2]
    · rw [numberPart_of_none s f1, numberPart_of_none _ f2]
      exact (bodyOK_base_digits s hbody).1
    · rw [numberPart_of_none s f1, numberPart_of_none _ f2]
      exact (bodyOK_base_digits s hbody).2
  · obtain ⟨body, rfl⟩ := List.isSuffixOf_iff_suffix.mp hsuf
    have hlen : (body ++ p.1).length - p.1.length = body.length := by
      simp [List.length_append]
    rw [hlen, List.take_left] at hbody
    have herase : eraseU (body ++ p.1) = eraseU body ++ p.1 := by
      show (body ++ p.1).filter (fun c => !(c = '_')) = eraseU body ++ p.1
      rw [List.filter_append]
      show eraseU body ++ eraseU p.1 = eraseU body ++ p.1
      rw [SUFFIXES_no_underscore p hp]
    refine parse_integer_congr span _ _ ?_ ?_ ?_
    · rw [findSuffix_append body p hp, herase,
        findSuffix_append (eraseU body) p hp]
    · rw [numberPart_append body p hp, herase,
        numberPart_append (eraseU body) p hp]
      exact (bodyOK_base_digits body hbody).1
    · rw [numberPart_append body p hp, herase,
        numberPart_append (eraseU body) p hp]
      exact (bodyOK_base_digits body hbody).2

/-- C6: `parse_integer` strips the table suffix, then the base prefix,
then the underscores, so underscore placement in an integer lexeme does
not affect the parsed value; `"1_000u32"` and `"1000u32"` both yield the
decimal literal `1000` with suffix `U32`. -/
theorem parse_integer_underscore_invariance :
    (∀ (span : Nat × Nat) (s1 s2 : List Char),
      isIntegerLexeme s1 = true → isIntegerLexeme s2 = true →
      eraseU s1 = eraseU s2 →
      parse_integer span s1 = parse_integer span s2) ∧
    (∀ span : Nat × Nat,
      parse_integer span ("1_000u32".toList) =
        .ok ⟨Base.Decimal, "1000".toList, some .U32⟩ ∧
      parse_integer span ("1000u32".toList) =
        .ok ⟨Base.Decimal, "1000".toList, some .U32⟩) := by
  constructor
  · intro span s1 s2 h1 h2 he
    rw [parse_integer_norm span s1 h1, parse_integer_norm span s2 h2, he]
  · intro span
    exact ⟨rfl, rfl⟩

/-- C6 (witness): the invariance applied to the spec's own pair of
lexemes. -/
theorem parse_integer_underscore_invariance_witness :
    isIntegerLexeme ("1_000u32".toList) = true ∧
    isIntegerLexeme ("1000u32".toList) = true ∧
    parse_integer (0, 8) ("1_000u32".toList) =
      parse_integer (0, 8) ("1000u32".toList) :=
  ⟨by decide, by decide,
   parse_integer_underscore_invariance.1 (0, 8) _ _ (by decide) (by decide)
     (by decide)⟩

end Fig
